import Mathlib

/-!
# gmqttlib: the MQTT v5 properties decoder of `src/lib/gmqttlib.c`

A shallow embedding of the C decoder and a verification of its specification.

Conventions of the embedding

* A byte is a `Fin 256`; the Python `bytes` argument is a `List Byte`.
* A C pointer into the input buffer (`uint8_t *payload`) is the list of the
  bytes from the pointed position to the end of the buffer; advancing the
  pointer by `n` is `List.drop n`.  The cursor position is therefore
  `buffer.length - payload.length`.
* Every read of a byte is checked: a read past the end of the buffer gives
  `Outcome.oob` (undefined behaviour in C), which is distinct from the
  decoder's own failure `Outcome.fail` (`return -1`, or `Py_RETURN_NONE` in
  `extract_properties`).
* Loops are structural recursions on an iteration bound; `Outcome.nofuel`
  is the result when the bound is exhausted before the loop has ended.
* `uint32_t` counters are natural numbers.  Every subtraction the code performs
  on them sits behind a guard that excludes underflow, so truncated
  subtraction on `Nat` is the machine subtraction; the one narrowing
  conversion, `uint32_t payload_size = PyBytes_Size(bytesObj)`, is explicit
  (`% 2 ^ 32`).
* Python objects: a `dict` is an association list in insertion order whose
  values are lists; `PyLong_FromLong`, `PyList_New`, `PyDict_SetItem`,
  `PyTuple_New`, `malloc` are taken to succeed.  `PyUnicode_FromString`
  applied to decoded text is a parameter of the model (it returns `none` when
  the interpreter refuses the text), so that nothing is assumed about which
  strings the interpreter accepts.
-/

namespace Gmqtt

/-- An octet of the wire format. -/
abbrev Byte := Fin 256

/-- Result of running a piece of the C code. -/
inductive Outcome (α : Type) where
  /-- normal return with a value -/
  | ok (a : α)
  /-- the code reported failure (`return -1` / `Py_RETURN_NONE`) -/
  | fail
  /-- a byte was read outside the buffer -/
  | oob
  /-- the iteration bound of the model ran out -/
  | nofuel
  deriving DecidableEq, Repr

/-- The pair `uint8_t *payload`, `uint32_t payload_size` that the extraction
helpers update in place. -/
structure Cursor where
  /-- bytes from the pointer to the end of the buffer -/
  payload : List Byte
  /-- the remaining-size counter -/
  payload_size : Nat
  deriving DecidableEq, Repr

/-! ## Property identifiers and names (lines 9-72) -/

/-- The array `mqtt_property[]`: name of each property identifier.  Slots the
initialiser leaves out are `NULL` in C; they are `""` here and are never
indexed by the decoder. -/
def mqtt_property : Nat → String
  | 0x01 => "payload_format_id"
  | 0x02 => "message_expiry_interval"
  | 0x03 => "content_type"
  | 0x08 => "response_topic"
  | 0x09 => "correlation_data"
  | 0x0B => "subscription_identifier"
  | 0x11 => "session_expiry_interval"
  | 0x12 => "assigned_client_identifier"
  | 0x13 => "server_keep_alive"
  | 0x15 => "auth_method"
  | 0x16 => "auth_data"
  | 0x17 => "request_problem_info"
  | 0x18 => "will_delay_interval"
  | 0x19 => "request_response_info"
  | 0x1A => "response_info"
  | 0x1C => "server_reference"
  | 0x1F => "reason_string"
  | 0x21 => "receive_maximum"
  | 0x22 => "topic_alias_maximum"
  | 0x23 => "topic_alias"
  | 0x24 => "max_qos"
  | 0x25 => "retain_available"
  | 0x26 => "user_property"
  | 0x27 => "maximum_packet_size"
  | 0x28 => "wildcard_subscription_available"
  | 0x29 => "sub_id_available"
  | 0x2A => "shared_subscription_available"
  | _ => ""

/-- The enumerator `mqtt_property_type_up` (User Property). -/
def mqtt_property_type_up : Nat := 0x26

/-! ## `validate_utf8` (lines 76-158) -/

/-- The inner `for (j = 0; j < codelen-1; j++)` loop of `validate_utf8`:
`n` iterations are left, `i` is the index of the last byte read.  The result
`none` stands for the early `return -1`; `some (i, codepoint)` is the state
after the loop. -/
def utf8_continuation (ustr : List Byte) : Nat → Nat → Nat → Outcome (Option (Nat × Nat))
  | 0, i, codepoint => .ok (some (i, codepoint))
  | n + 1, i, codepoint =>
    match ustr[i + 1]? with
    | none => .oob
    | some c =>
      if c.val &&& 0xC0 ≠ 0x80 then .ok none
      else utf8_continuation ustr n (i + 1) ((codepoint <<< 6) ||| (c.val &&& 0x3F))

/-- The lead-byte classification at the top of the outer loop body of
`validate_utf8`: `some (codelen, codepoint)`, or `none` for `return -1`. -/
def utf8_lead (c : Nat) : Option (Nat × Nat) :=
  if c = 0 then none
  else if c ≤ 0x7f then some (1, c)
  else if c &&& 0xE0 = 0xC0 then
    if c = 0xC0 ∨ c = 0xC1 then none else some (2, c &&& 0x1F)
  else if c &&& 0xF0 = 0xE0 then some (3, c &&& 0x0F)
  else if c &&& 0xF8 = 0xF0 then
    if c > 0xF4 then none else some (4, c &&& 0x07)
  else none

/-- The outer `for (i = 0; i < len; i++)` loop of `validate_utf8`, from index
`i`.  Every `return` of the function, the last one included, returns `-1`. -/
def validate_utf8_loop (ustr : List Byte) (len : Int) : Nat → Nat → Outcome Int
  | 0, i => if (i : Int) < len then .nofuel else .ok (-1)
  | fuel + 1, i =>
    if (i : Int) < len then
      match ustr[i]? with
      | none => .oob
      | some c =>
        match utf8_lead c.val with
        | none => .ok (-1)
        | some (codelen, codepoint) =>
          if (i : Int) = len - (codelen : Int) + 1 then .ok (-1)
          else
            match utf8_continuation ustr (codelen - 1) i codepoint with
            | .ok none => .ok (-1)
            | .ok (some (i, codepoint)) =>
              if 0xD800 ≤ codepoint ∧ codepoint ≤ 0xDFFF then .ok (-1)
              else if codelen = 3 ∧ codepoint < 0x0800 then .ok (-1)
              else if codelen = 4 ∧ (codepoint < 0x10000 ∨ codepoint > 0x10FFFF) then .ok (-1)
              else if 0xFDD0 ≤ codepoint ∧ codepoint ≤ 0xFDEF then .ok (-1)
              else if codepoint &&& 0xFFFF = 0xFFFE ∨ codepoint &&& 0xFFFF = 0xFFFF then .ok (-1)
              else if codepoint ≤ 0x001F ∨ (0x007F ≤ codepoint ∧ codepoint ≤ 0x009F) then .ok (-1)
              else validate_utf8_loop ustr len fuel (i + 1)
            | .fail => .fail
            | .oob => .oob
            | .nofuel => .nofuel
    else .ok (-1)

/-- The function `validate_utf8(str, len)` for a non-NULL `str`; `ustr` is the
whole allocated buffer `str` points to. -/
def validate_utf8 (ustr : List Byte) (len : Int) : Outcome Int :=
  if len < 0 ∨ len > 65536 then .ok (-1)
  else validate_utf8_loop ustr len len.toNat 0

/-! ## `fieldset_unpack_uint` (lines 162-183) -/

/-- The `while (*ptr & 0x80)` loop of `fieldset_unpack_uint`, with
`idx = ptr - field_value`.  The result is `(return value, *bytes_read)`.
`value` is a `uint64_t`.  (A shift by 64 bits or more is undefined in C; it is
taken modulo `2 ^ 64` here and is only reached after nine continuation
bytes.) -/
def unpack_loop (field_size : Nat) : List Byte → Nat → Nat → Nat → Outcome (Nat × Nat)
  | [], _, _, _ => .oob
  | b :: ptr, idx, value, bits =>
    if b.val &&& 0x80 ≠ 0 then
      if idx + 1 ≥ field_size then .ok (0, 0)
      else unpack_loop field_size ptr (idx + 1)
        ((value + ((b.val &&& 0x7F) <<< bits) % 2 ^ 64) % 2 ^ 64) (bits + 7)
    else
      .ok ((value + ((b.val &&& 0x7F) <<< bits) % 2 ^ 64) % 2 ^ 64, idx + 1)

/-- The function `fieldset_unpack_uint(field_value, field_size, &bytes_read)`:
returns `(value, bytes_read)`. -/
def fieldset_unpack_uint (field_value : List Byte) (field_size : Nat) : Outcome (Nat × Nat) :=
  unpack_loop field_size field_value 0 0 0

/-! ## `mqtt_extract_string` (lines 191-224) -/

/-- The function `mqtt_extract_string(&payload, &payload_size, &text, max_length,
&str_length)`.  On success the result is the updated cursor, the allocated
buffer `text` (the copied bytes and the terminating zero) and `str_length`. -/
def mqtt_extract_string (c : Cursor) (max_length : Int) : Outcome (Cursor × List Byte × Nat) :=
  if c.payload_size < 2 then .fail
  else
    match c.payload with
    | b0 :: b1 :: rest =>
      let length := b0.val * 256 + b1.val
      if c.payload_size < 2 + length ∨ (length : Int) > max_length then .fail
      else if rest.length < length then .oob
      else
        let text := rest.take length ++ [0]
        match validate_utf8 text length with
        | .ok r =>
          if r = 0 then .fail
          else .ok (⟨c.payload.drop (length + 2), c.payload_size - (length + 2)⟩, text, length)
        | .fail => .fail
        | .oob => .oob
        | .nofuel => .nofuel
    | _ => .oob

/-! ## `mqtt_extract_uint` (lines 227-244) -/

/-- The function `mqtt_extract_uint(&payload, &payload_size, &value)` for a
non-NULL `value`: the updated cursor and `*value` (a `uint32_t`). -/
def mqtt_extract_uint (c : Cursor) : Outcome (Cursor × Nat) :=
  if c.payload_size < 1 then .fail
  else
    match fieldset_unpack_uint c.payload c.payload_size with
    | .ok (value, bytes_read) =>
      if bytes_read = 0 ∨ bytes_read > 4 then .fail
      else .ok (⟨c.payload.drop bytes_read, c.payload_size - bytes_read⟩, value % 2 ^ 32)
    | .fail => .fail
    | .oob => .oob
    | .nofuel => .nofuel

/-! ## The result dictionary (lines 247-383) -/

/-- A Python `str`, as the bytes the interpreter built it from. -/
abbrev PyStr := List Byte

/-- The Python values the decoder stores. -/
inductive PyObject where
  /-- an `int` made by `PyLong_FromLong` -/
  | long (n : Nat)
  /-- a `str` made by `PyUnicode_FromString` -/
  | unicode (s : PyStr)
  /-- a 2-tuple made by `PyTuple_New(2)` and two `PyTuple_SetItem` -/
  | tuple (fst snd : PyObject)
  deriving DecidableEq, Repr

/-- A Python `dict` whose values are lists, in insertion order. -/
abbrev PyDict := List (String × List PyObject)

/-- `PyDict_Contains(dictObj, key)`. -/
def PyDict_Contains (dictObj : PyDict) (key : String) : Bool :=
  dictObj.any (fun e => e.1 == key)

/-- `PyDict_SetItem(dictObj, key, listObj)`. -/
def PyDict_SetItem (dictObj : PyDict) (key : String) (listObj : List PyObject) : PyDict :=
  if PyDict_Contains dictObj key then
    dictObj.map (fun e => if e.1 == key then (e.1, listObj) else e)
  else dictObj ++ [(key, listObj)]

/-- In-place update of the list object stored under `key` (the object
`listObj` points to after `PyDict_SetItem` or `PyDict_GetItem`). -/
def PyDict_update_list (dictObj : PyDict) (key : String)
    (f : List PyObject → List PyObject) : PyDict :=
  dictObj.map (fun e => if e.1 == key then (e.1, f e.2) else e)

/-- The common first half of `write_property_int` and `write_property_string`:
make sure a list is stored under `key`. -/
def ensure_list (dictObj : PyDict) (key : String) : PyDict :=
  if PyDict_Contains dictObj key == false then PyDict_SetItem dictObj key [] else dictObj

/-- The function `write_property_int(dictObj, property_type, value)`:
`PyList_Insert(listObj, 0, uint_val)` on the list under the property name.
(`PyLong_FromLong(value)` is taken on a platform whose `long` holds every
`uint32_t` value.) -/
def write_property_int (dictObj : PyDict) (property_type : Nat) (value : Nat) : Outcome PyDict :=
  let key := mqtt_property property_type
  let dictObj := ensure_list dictObj key
  .ok (PyDict_update_list dictObj key (fun listObj => PyObject.long value :: listObj))

/-- The C string a `char *` denotes: the bytes before the first zero. -/
def c_str (s : List Byte) : List Byte := s.takeWhile (fun b => b.val ≠ 0)

/-- The function `write_property_string(dictObj, property_type, first_string,
second_string)` for a non-NULL `first_string`; `second_string` is `none` for
`NULL`.  A User Property is a tuple put at the END of the list
(`PyList_Append`), any other string goes to the front (`PyList_Insert` at 0). -/
def write_property_string (PyUnicode_FromString : List Byte → Option PyStr)
    (dictObj : PyDict) (property_type : Nat)
    (first_string : List Byte) (second_string : Option (List Byte)) : Outcome PyDict :=
  let key := mqtt_property property_type
  let dictObj := ensure_list dictObj key
  if property_type = mqtt_property_type_up then
    match PyUnicode_FromString (c_str first_string) with
    | none => .fail
    | some s1 =>
      match second_string with
      | none => .oob
      | some second =>
        match PyUnicode_FromString (c_str second) with
        | none => .fail
        | some s2 =>
          .ok (PyDict_update_list dictObj key
            (fun listObj => listObj ++ [PyObject.tuple (.unicode s1) (.unicode s2)]))
  else
    match PyUnicode_FromString (c_str first_string) with
    | none => .fail
    | some s1 =>
      .ok (PyDict_update_list dictObj key (fun listObj => PyObject.unicode s1 :: listObj))

/-! ## `extract_properties` (lines 386-558) -/

/-- The variables of the parsing loop: the dictionary, the pointer `payload`
and the remaining-properties counter `properties_size`. -/
structure LoopState where
  /-- the dictionary built so far -/
  dictObj : PyDict
  /-- the pointer `payload` -/
  payload : List Byte
  /-- the counter `properties_size` -/
  properties_size : Nat
  deriving DecidableEq, Repr

/-- The body of the loop `while (properties_size > 1) { ... }` of
`extract_properties` (lines 418-554): one identifier byte and its value.
`Outcome.fail` is `Py_RETURN_NONE`. -/
def parse_property (PyUnicode_FromString : List Byte → Option PyStr)
    (dictObj : PyDict) (payload : List Byte) (properties_size : Nat) : Outcome LoopState :=
  match payload with
  | [] => .oob
  | t :: payload =>
    let property_type := t.val
    let properties_size := properties_size - 1
    match property_type with
    -- 1 byte value
    | 0x01 | 0x24 | 0x25 | 0x28 | 0x29 | 0x2A | 0x19 | 0x17 =>
      match payload with
      | [] => .oob
      | v :: _ =>
        match write_property_int dictObj property_type v.val with
        | .ok dictObj => .ok ⟨dictObj, payload.drop 1, properties_size - 1⟩
        | .fail => .fail
        | .oob => .oob
        | .nofuel => .nofuel
    -- 2 bytes value
    | 0x13 | 0x21 | 0x22 | 0x23 =>
      if properties_size < 2 then .fail
      else
        match payload with
        | b0 :: b1 :: _ =>
          match write_property_int dictObj property_type (b0.val * 256 + b1.val) with
          | .ok dictObj => .ok ⟨dictObj, payload.drop 2, properties_size - 2⟩
          | .fail => .fail
          | .oob => .oob
          | .nofuel => .nofuel
        | _ => .oob
    -- 4 bytes value
    | 0x02 | 0x11 | 0x18 | 0x27 =>
      if properties_size < 4 then .fail
      else
        match payload with
        | b0 :: b1 :: b2 :: b3 :: _ =>
          match write_property_int dictObj property_type
              (b0.val * 2 ^ 24 + b1.val * 2 ^ 16 + b2.val * 2 ^ 8 + b3.val) with
          | .ok dictObj => .ok ⟨dictObj, payload.drop 4, properties_size - 4⟩
          | .fail => .fail
          | .oob => .oob
          | .nofuel => .nofuel
        | _ => .oob
    -- variable byte integer
    | 0x0B =>
      match mqtt_extract_uint ⟨payload, properties_size⟩ with
      | .ok (c, uint_value) =>
        match write_property_int dictObj property_type uint_value with
        | .ok dictObj => .ok ⟨dictObj, c.payload, c.payload_size⟩
        | .fail => .fail
        | .oob => .oob
        | .nofuel => .nofuel
      | .fail => .fail
      | .oob => .oob
      | .nofuel => .nofuel
    -- utf-8 encoded string
    | 0x03 | 0x08 | 0x12 | 0x15 | 0x1A | 0x1C | 0x1F =>
      match mqtt_extract_string ⟨payload, properties_size⟩ 65535 with
      | .ok (c, string_value, _) =>
        match write_property_string PyUnicode_FromString dictObj property_type string_value none with
        | .ok dictObj => .ok ⟨dictObj, c.payload, c.payload_size⟩
        | .fail => .fail
        | .oob => .oob
        | .nofuel => .nofuel
      | .fail => .fail
      | .oob => .oob
      | .nofuel => .nofuel
    -- utf-8 string pair
    | 0x26 =>
      match mqtt_extract_string ⟨payload, properties_size⟩ 65535 with
      | .ok (c, string_value, _) =>
        match mqtt_extract_string c 65535 with
        | .ok (c, pair_string_value, _) =>
          match write_property_string PyUnicode_FromString dictObj property_type
              string_value (some pair_string_value) with
          | .ok dictObj => .ok ⟨dictObj, c.payload, c.payload_size⟩
          | .fail => .fail
          | .oob => .oob
          | .nofuel => .nofuel
        | .fail => .fail
        | .oob => .oob
        | .nofuel => .nofuel
      | .fail => .fail
      | .oob => .oob
      | .nofuel => .nofuel
    -- binary data
    | 0x09 | 0x16 =>
      if properties_size < 2 then .fail
      else
        match payload with
        | b0 :: b1 :: _ =>
          let property_size := b0.val * 256 + b1.val
          if property_size + 2 > properties_size then .fail
          else .ok ⟨dictObj, payload.drop (2 + property_size), properties_size - (2 + property_size)⟩
        | _ => .oob
    -- unknown code
    | _ => .fail

/-- The loop `while (properties_size > 1) { ... }` of `extract_properties`,
bounded by `fuel` iterations; the result is the state in which the loop is
left. -/
def parse_properties (PyUnicode_FromString : List Byte → Option PyStr) :
    Nat → LoopState → Outcome LoopState
  | 0, s => if s.properties_size > 1 then .nofuel else .ok s
  | fuel + 1, s =>
    if s.properties_size > 1 then
      match parse_property PyUnicode_FromString s.dictObj s.payload s.properties_size with
      | .ok s => parse_properties PyUnicode_FromString fuel s
      | .fail => .fail
      | .oob => .oob
      | .nofuel => .nofuel
    else .ok s

/-- The part of `extract_properties` up to the loop: read the properties
length, check it against the payload, and run the loop (each iteration takes
at least one byte off the counter, so `properties_size` iterations are
enough).  The result is the state in which the loop is left. -/
def extract_properties_loop (PyUnicode_FromString : List Byte → Option PyStr)
    (bytesObj : List Byte) : Outcome LoopState :=
  match mqtt_extract_uint ⟨bytesObj, bytesObj.length % 2 ^ 32⟩ with
  | .ok (c, properties_size) =>
    if properties_size > c.payload_size then .fail
    else parse_properties PyUnicode_FromString properties_size ⟨[], c.payload, properties_size⟩
  | .fail => .fail
  | .oob => .oob
  | .nofuel => .nofuel

/-- The function `extract_properties(bytesObj)`: the dictionary, or
`Outcome.fail` for `Py_RETURN_NONE`. -/
def extract_properties (PyUnicode_FromString : List Byte → Option PyStr)
    (bytesObj : List Byte) : Outcome PyDict :=
  match extract_properties_loop PyUnicode_FromString bytesObj with
  | .ok e => .ok e.dictObj
  | .fail => .fail
  | .oob => .oob
  | .nofuel => .nofuel

/-! ## Auxiliary definitions used in the statements -/

/-- Continuation-bit test of the varint reader, `*ptr & 0x80`. -/
def has_continuation_bit (b : Byte) : Prop := b.val &&& 0x80 ≠ 0

instance (b : Byte) : Decidable (has_continuation_bit b) := by
  unfold has_continuation_bit; infer_instance

/-- The value accumulated by the `while` loop of `fieldset_unpack_uint` over
the bytes `l`, starting from `value` at bit offset `bits`. -/
def varint_accumulate : List Byte → Nat → Nat → Nat
  | [], value, _ => value
  | b :: l, value, bits =>
    varint_accumulate l ((value + ((b.val &&& 0x7F) <<< bits) % 2 ^ 64) % 2 ^ 64) (bits + 7)

/-- The standard MQTT variable-byte encoding with at most `n + 1` bytes: seven
bits per byte, least-significant group first, the continuation bit `0x80` on
every byte but the last.  (The source has no encoder; this is the encoding of
the MQTT specification, used to state the round trip.) -/
def encode_varint : Nat → Nat → List Byte
  | 0, v => [Fin.ofNat (v % 128)]
  | n + 1, v =>
    if v < 128 then [Fin.ofNat v]
    else Fin.ofNat (v % 128 + 128) :: encode_varint n (v / 128)

/-- The MQTT variable-byte encoding of `v` (one to four bytes). -/
def mqtt_varint (v : Nat) : List Byte := encode_varint 3 v

/-- A length-prefixed field on the wire (UTF-8 string or binary data): two-byte
big-endian length, then the bytes.  (The source has no encoder; this is the
layout the decoder reads, used to state properties of decoding.) -/
def length_prefixed (s : List Byte) : List Byte :=
  Fin.ofNat (s.length / 256) :: Fin.ofNat (s.length % 256) :: s

/-- Text that reaches the interpreter unchanged and is accepted by it: at most
65535 bytes, none of them zero, and `PyUnicode_FromString` returns `p`. -/
def accepted_text (PyUnicode_FromString : List Byte → Option PyStr) (s : List Byte)
    (p : PyStr) : Prop :=
  s.length ≤ 65535 ∧ (∀ b ∈ s, b ≠ 0) ∧ PyUnicode_FromString s = some p

/-- One User Property entry on the wire: the identifier `0x26`, then the key
and the value as length-prefixed strings. -/
def user_property_entry (k v : List Byte) : List Byte :=
  0x26 :: (length_prefixed k ++ length_prefixed v)

/-- The identifiers of `mqtt_property_type_t` (lines 9-37). -/
def defined_identifiers : List Nat :=
  [0x01, 0x02, 0x03, 0x08, 0x09, 0x0B, 0x11, 0x12, 0x13, 0x15, 0x16, 0x17, 0x18, 0x19,
   0x1A, 0x1C, 0x1F, 0x21, 0x22, 0x23, 0x24, 0x25, 0x26, 0x27, 0x28, 0x29, 0x2A]

/-- The state of the loop of `extract_properties` at the `n`-th evaluation of
its guard `properties_size > 1`, counted from 0, when the loop is started in
state `s`; `none` when the loop has ended or failed before. -/
def loop_state_at (PyUnicode_FromString : List Byte → Option PyStr) :
    Nat → LoopState → Option LoopState
  | 0, s => some s
  | n + 1, s =>
    if s.properties_size > 1 then
      match parse_property PyUnicode_FromString s.dictObj s.payload s.properties_size with
      | .ok s => loop_state_at PyUnicode_FromString n s
      | _ => none
    else none

/-- The wire kinds of spec section 3 (`PropertyKind`). -/
inductive PropertyKind where
  | Byte
  | TwoByteInt
  | FourByteInt
  | VariableByteInt
  | Utf8String
  | Utf8StringPair
  | BinaryData
  deriving DecidableEq, Repr

/-- The wire kind that the comments of the enumeration `mqtt_property_type_t`
(lines 10-36) document for each identifier. -/
def documented_kind : Nat → Option PropertyKind
  | 0x01 => some .Byte               -- Payload Format Indicator, Byte
  | 0x02 => some .FourByteInt        -- Publication Expiry Interval, Four Byte Integer
  | 0x03 => some .Utf8String         -- Content Type, UTF-8 Encoded String
  | 0x08 => some .Utf8String         -- Response Topic, UTF-8 Encoded String
  | 0x09 => some .BinaryData         -- Correlation Data, Binary Data
  | 0x0B => some .VariableByteInt    -- Subscription Identifier, Variable Byte Integer
  | 0x11 => some .FourByteInt        -- Session Expiry Interval, Four Byte Integer
  | 0x12 => some .Utf8String         -- Assigned Client Identifier, UTF-8 Encoded String
  | 0x13 => some .TwoByteInt         -- Server Keep Alive, Two Byte Integer
  | 0x15 => some .Utf8String         -- Authentication Method, UTF-8 Encoded String
  | 0x16 => some .BinaryData         -- Authentication Data, Binary Data
  | 0x17 => some .Byte               -- Request Problem Information, Byte
  | 0x18 => some .FourByteInt        -- Will Delay Interval, Four Byte Integer
  | 0x19 => some .Byte               -- Request Response Information, Byte
  | 0x1A => some .Utf8String         -- Response Information, UTF-8 Encoded String
  | 0x1C => some .Utf8String         -- Server Reference, UTF-8 Encoded String
  | 0x1F => some .Utf8String         -- Reason String, UTF-8 Encoded String
  | 0x21 => some .TwoByteInt         -- Receive Maximum, Two Byte Integer
  | 0x22 => some .TwoByteInt         -- Topic Alias Maximum, Two Byte Integer
  | 0x23 => some .TwoByteInt         -- Topic Alias, Two Byte Integer
  | 0x24 => some .Byte               -- Maximum QoS, Byte
  | 0x25 => some .Byte               -- Retain Available, Byte
  | 0x26 => some .Utf8StringPair     -- User Property, UTF-8 String Pair
  | 0x27 => some .FourByteInt        -- Maximum Packet Size, Four Byte Integer
  | 0x28 => some .Byte               -- Wildcard Subscription Available, Byte
  | 0x29 => some .Byte               -- Subscription Identifier Available, Byte
  | 0x2A => some .Byte               -- Shared Subscription Available, Byte
  | _ => none

/-- The decoded payload of one property occurrence (spec section 3,
`DecodedValue`); `text` buffers are the zero-terminated copies. -/
inductive DecodedValue where
  | uint (n : Nat)
  | text (s : List Byte)
  | pair (k v : List Byte)
  | discarded
  deriving DecidableEq, Repr

/-- Specification of the value decoding, following spec section 4.5 step 3c:
how a value of each wire kind is read at the cursor that stands right after
the identifier byte. -/
def decode_value (kind : PropertyKind) (c : Cursor) : Outcome (DecodedValue × Cursor) :=
  match kind with
  -- read 1 byte, decrement remaining by 1
  | .Byte =>
    match c.payload with
    | v :: _ => .ok (.uint v.val, ⟨c.payload.drop 1, c.payload_size - 1⟩)
    | [] => .oob
  -- require at least 2 bytes remaining; read big-endian uint16; decrement by 2
  | .TwoByteInt =>
    if c.payload_size < 2 then .fail
    else
      match c.payload with
      | b0 :: b1 :: _ =>
        .ok (.uint (b0.val * 256 + b1.val), ⟨c.payload.drop 2, c.payload_size - 2⟩)
      | _ => .oob
  -- require at least 4 bytes remaining; read big-endian uint32; decrement by 4
  | .FourByteInt =>
    if c.payload_size < 4 then .fail
    else
      match c.payload with
      | b0 :: b1 :: b2 :: b3 :: _ =>
        .ok (.uint (b0.val * 2 ^ 24 + b1.val * 2 ^ 16 + b2.val * 2 ^ 8 + b3.val),
          ⟨c.payload.drop 4, c.payload_size - 4⟩)
      | _ => .oob
  -- the varint reader bounded to 4 bytes; decrement by bytes consumed
  | .VariableByteInt =>
    match mqtt_extract_uint c with
    | .ok (c, v) => .ok (.uint v, c)
    | .fail => .fail
    | .oob => .oob
    | .nofuel => .nofuel
  -- the string extractor with max length 65535; decrement by bytes consumed
  | .Utf8String =>
    match mqtt_extract_string c 65535 with
    | .ok (c, s, _) => .ok (.text s, c)
    | .fail => .fail
    | .oob => .oob
    | .nofuel => .nofuel
  -- two UTF-8 strings in sequence, stored as an ordered pair
  | .Utf8StringPair =>
    match mqtt_extract_string c 65535 with
    | .ok (c, k, _) =>
      match mqtt_extract_string c 65535 with
      | .ok (c, v, _) => .ok (.pair k v, c)
      | .fail => .fail
      | .oob => .oob
      | .nofuel => .nofuel
    | .fail => .fail
    | .oob => .oob
    | .nofuel => .nofuel
  -- 2-byte length prefix, that many bytes must remain; advance past both; value discarded
  | .BinaryData =>
    if c.payload_size < 2 then .fail
    else
      match c.payload with
      | b0 :: b1 :: _ =>
        if b0.val * 256 + b1.val + 2 > c.payload_size then .fail
        else .ok (.discarded, ⟨c.payload.drop (2 + (b0.val * 256 + b1.val)),
          c.payload_size - (2 + (b0.val * 256 + b1.val))⟩)
      | _ => .oob

/-- Specification of the recording step (spec section 4.5 step 3d): the decoded
value goes into the table under the name `mqtt_property[id]`; a binary value
is not recorded. -/
def record_value (PyUnicode_FromString : List Byte → Option PyStr) (dictObj : PyDict)
    (id : Nat) : DecodedValue → Outcome PyDict
  | .uint n => write_property_int dictObj id n
  | .text s => write_property_string PyUnicode_FromString dictObj id s none
  | .pair k v => write_property_string PyUnicode_FromString dictObj id k (some v)
  | .discarded => .ok dictObj

/-- Specification of one property after its identifier byte `id`: decode the
value as `kind` and record it. -/
def parse_property_as (PyUnicode_FromString : List Byte → Option PyStr) (kind : PropertyKind)
    (dictObj : PyDict) (id : Nat) (c : Cursor) : Outcome LoopState :=
  match decode_value kind c with
  | .ok (v, c) =>
    match record_value PyUnicode_FromString dictObj id v with
    | .ok dictObj => .ok ⟨dictObj, c.payload, c.payload_size⟩
    | .fail => .fail
    | .oob => .oob
    | .nofuel => .nofuel
  | .fail => .fail
  | .oob => .oob
  | .nofuel => .nofuel

/-- `PyDict_GetItem(dictObj, key)`: the list stored under `key`, `none` for
`NULL` (no such key). -/
def PyDict_GetItem (dictObj : PyDict) (key : String) : Option (List PyObject) :=
  (dictObj.find? (fun e => e.1 == key)).map (fun e => e.2)

/-- The big-endian value of the two-byte length prefix at a pointer
(`ntohs(*(uint16_t*)p)`); 0 when fewer than two bytes are there. -/
def length_field (p : List Byte) : Nat :=
  match p with
  | b0 :: b1 :: _ => b0.val * 256 + b1.val
  | _ => 0

/-- The value of the Subscription Identifier entry at the pointer of a loop
state: `[v]` when the identifier byte there is `0x0B` and its varint decodes to
`v`, `[]` otherwise. -/
def subscription_identifier_at (s : LoopState) : List Nat :=
  match s.payload with
  | t :: payload =>
    if t.val = 0x0B then
      match mqtt_extract_uint ⟨payload, s.properties_size - 1⟩ with
      | .ok (_, v) => [v]
      | _ => []
    else []
  | [] => []

/-- The values of the Subscription Identifier entries that the loop of
`extract_properties` meets from state `s` on, in wire order. -/
def subscription_identifiers (PyUnicode_FromString : List Byte → Option PyStr) :
    Nat → LoopState → List Nat
  | 0, _ => []
  | fuel + 1, s =>
    if s.properties_size > 1 then
      match parse_property PyUnicode_FromString s.dictObj s.payload s.properties_size with
      | .ok s' =>
        subscription_identifier_at s ++ subscription_identifiers PyUnicode_FromString fuel s'
      | _ => []
    else []

/-- The wire form of Subscription Identifier entries with the values `vs`, in
that order: for each value the identifier `0x0B` and its variable-byte
encoding. -/
def subscription_identifier_entries : List Nat → List Byte
  | [] => []
  | v :: vs => 0x0B :: (mqtt_varint v ++ subscription_identifier_entries vs)

/-! # Lemmas and theorems -/

/-! ## Bytes and the varint reader -/

set_option maxRecDepth 100000 in
theorem byte_top_bit (b : Byte) : b.val &&& 0x80 ≠ 0 ↔ 128 ≤ b.val := by
  revert b; decide

set_option maxRecDepth 100000 in
theorem byte_low7 (b : Byte) : b.val &&& 0x7F = b.val % 128 := by
  revert b; decide

theorem land_127 (x : Nat) : x &&& 127 = x % 128 :=
  Nat.and_pow_two_sub_one_eq_mod x 7

theorem unpack_loop_skip_cont (fs : Nat) (pre rest : List Byte) :
    ∀ idx value bits, (∀ x ∈ pre, has_continuation_bit x) → idx + pre.length < fs →
      unpack_loop fs (pre ++ rest) idx value bits
        = unpack_loop fs rest (idx + pre.length) (varint_accumulate pre value bits)
            (bits + 7 * pre.length) := by
  induction pre with
  | nil => intro idx value bits _ _; simp [varint_accumulate]
  | cons b pre ih =>
    intro idx value bits hc hlt
    have hb : b.val &&& 0x80 ≠ 0 := hc b (by simp)
    simp only [List.length_cons] at hlt
    have h1 : ¬ (idx + 1 ≥ fs) := by omega
    simp only [List.cons_append, unpack_loop, hb, h1, if_true, if_false, ne_eq, not_false_eq_true,
      varint_accumulate, List.length_cons]
    rw [show pre.append rest = pre ++ rest from rfl,
      ih (idx + 1) _ _ (fun x hx => hc x (by simp [hx])) (by omega)]
    congr 1 <;> omega

theorem varint_accumulate_append (pre l : List Byte) :
    ∀ value bits, varint_accumulate (pre ++ l) value bits
      = varint_accumulate l (varint_accumulate pre value bits) (bits + 7 * pre.length) := by
  induction pre with
  | nil => intro value bits; simp [varint_accumulate]
  | cons b pre ih =>
    intro value bits
    rw [List.cons_append]
    simp only [varint_accumulate, List.length_cons]
    rw [ih]
    congr 1; omega

theorem unpack_loop_stop (fs : Nat) (pre : List Byte) (b : Byte) (rest : List Byte)
    (idx value bits : Nat) (hc : ∀ x ∈ pre, has_continuation_bit x)
    (hb : ¬ has_continuation_bit b) (hlt : pre ≠ [] → idx + pre.length < fs) :
    unpack_loop fs (pre ++ b :: rest) idx value bits
      = .ok (varint_accumulate (pre ++ [b]) value bits, idx + pre.length + 1) := by
  have hb0 : ¬ (b.val &&& 0x80 ≠ 0) := hb
  cases pre with
  | nil => simp [unpack_loop, hb0, varint_accumulate]
  | cons a pre =>
    have h := hlt (by simp)
    rw [unpack_loop_skip_cont fs (a :: pre) (b :: rest) idx value bits hc h,
      varint_accumulate_append]
    simp [unpack_loop, hb0, varint_accumulate]

theorem unpack_loop_all_cont (fs : Nat) (l : List Byte) :
    ∀ idx value bits, idx < fs → fs ≤ idx + l.length →
      (∀ x ∈ l.take (fs - idx), has_continuation_bit x) →
      unpack_loop fs l idx value bits = .ok (0, 0) := by
  induction l with
  | nil => intro idx value bits h1 h2 _; simp at h2; omega
  | cons b l ih =>
    intro idx value bits h1 h2 hc
    obtain ⟨k, hk⟩ : ∃ k, fs - idx = k + 1 := ⟨fs - idx - 1, by omega⟩
    rw [hk, List.take_succ_cons] at hc
    have hb : b.val &&& 0x80 ≠ 0 := hc b (by simp)
    simp only [unpack_loop, hb, if_true, ne_eq, not_false_eq_true]
    by_cases h3 : idx + 1 ≥ fs
    · simp [h3]
    · simp only [h3, if_false]
      apply ih
      · omega
      · simp only [List.length_cons] at h2; omega
      · intro x hx
        have : fs - (idx + 1) = k := by omega
        rw [this] at hx
        exact hc x (by simp [hx])

theorem unpack_loop_ok_inv (fs : Nat) (l : List Byte) :
    ∀ idx value bits v r, unpack_loop fs l idx value bits = .ok (v, r) →
      (v = 0 ∧ r = 0) ∨
      ∃ pre b rest, l = pre ++ b :: rest ∧ (∀ x ∈ pre, has_continuation_bit x) ∧
        ¬ has_continuation_bit b ∧ (pre ≠ [] → idx + pre.length < fs) ∧
        r = idx + pre.length + 1 ∧ v = varint_accumulate (pre ++ [b]) value bits := by
  induction l with
  | nil => intro idx value bits v r h; simp [unpack_loop] at h
  | cons a l ih =>
    intro idx value bits v r h
    simp only [unpack_loop] at h
    split at h
    · rename_i ha
      split at h
      · left; cases h; exact ⟨rfl, rfl⟩
      · rename_i hfs
        rcases ih _ _ _ _ _ h with h0 | ⟨pre, b, rest, hl, hc, hb, hlt, hr, hv⟩
        · left; exact h0
        · right
          refine ⟨a :: pre, b, rest, by simp [hl], ?_, hb, ?_, ?_, ?_⟩
          · intro x hx
            rcases List.mem_cons.mp hx with rfl | hx
            · exact ha
            · exact hc x hx
          · intro _
            by_cases hp : pre = []
            · subst hp; simp; omega
            · have := hlt hp; simp only [List.length_cons]; omega
          · simp only [List.length_cons]; omega
          · rw [List.cons_append]; simp only [varint_accumulate]; exact hv
    · rename_i ha
      right
      cases h
      exact ⟨[], a, l, rfl, by simp, ha, by simp, by simp, by simp [varint_accumulate]⟩

theorem unpack_loop_in_bounds (fs : Nat) (l : List Byte) :
    ∀ idx value bits, idx < fs → fs ≤ idx + l.length →
      ∃ v r, unpack_loop fs l idx value bits = .ok (v, r) := by
  induction l with
  | nil => intro idx value bits h1 h2; simp at h2; omega
  | cons a l ih =>
    intro idx value bits h1 h2
    simp only [unpack_loop]
    split
    · split
      · exact ⟨0, 0, rfl⟩
      · apply ih
        · omega
        · simp only [List.length_cons] at h2; omega
    · exact ⟨_, _, rfl⟩

theorem mqtt_extract_uint_stop (pre : List Byte) (b : Byte) (rest : List Byte) (n : Nat)
    (hc : ∀ x ∈ pre, has_continuation_bit x) (hb : ¬ has_continuation_bit b)
    (h4 : pre.length < 4) (hn : pre.length < n) :
    mqtt_extract_uint ⟨pre ++ b :: rest, n⟩
      = .ok (⟨rest, n - (pre.length + 1)⟩, varint_accumulate (pre ++ [b]) 0 0 % 2 ^ 32) := by
  have h1 : ¬ n < 1 := by omega
  simp only [mqtt_extract_uint, h1, if_false, fieldset_unpack_uint]
  rw [unpack_loop_stop n pre b rest 0 0 0 hc hb (fun _ => by omega)]
  have h2 : ¬ (0 + pre.length + 1 = 0 ∨ 0 + pre.length + 1 > 4) := by omega
  simp only [h2, if_false]
  have h3 : (pre ++ b :: rest).drop (0 + pre.length + 1) = rest := by
    rw [show 0 + pre.length + 1 = (pre ++ [b]).length by simp,
      show pre ++ b :: rest = (pre ++ [b]) ++ rest by simp, List.drop_left]
  rw [h3]
  simp

theorem mqtt_extract_uint_ok_inv (l : List Byte) (n : Nat) (c : Cursor) (v : Nat)
    (h : mqtt_extract_uint ⟨l, n⟩ = .ok (c, v)) :
    ∃ pre b rest, l = pre ++ b :: rest ∧ (∀ x ∈ pre, has_continuation_bit x) ∧
      ¬ has_continuation_bit b ∧ pre.length < 4 ∧ pre.length < n ∧
      c = ⟨rest, n - (pre.length + 1)⟩ ∧ v = varint_accumulate (pre ++ [b]) 0 0 % 2 ^ 32 := by
  simp only [mqtt_extract_uint, fieldset_unpack_uint] at h
  split at h
  · cases h
  · rename_i hn
    split at h
    · rename_i value bytes_read hu
      split at h
      · cases h
      · rename_i hbr
        rcases unpack_loop_ok_inv _ _ _ _ _ _ _ hu with ⟨_, h0⟩ | ⟨pre, b, rest, hl, hc, hb, hlt, hr, hv⟩
        · omega
        · have h4 : pre.length < 4 := by omega
          have hn' : pre.length < n := by
            by_cases hp : pre = []
            · subst hp; simp; omega
            · have := hlt hp; omega
          have := mqtt_extract_uint_stop pre b rest n hc hb h4 hn'
          refine ⟨pre, b, rest, hl, hc, hb, h4, hn', ?_, ?_⟩
          · subst hl
            simp only [mqtt_extract_uint, fieldset_unpack_uint, hn, if_false, hu, hbr] at this
            injection this with this
            injection h with h
            exact (congrArg Prod.fst h).symm.trans (congrArg Prod.fst this)
          · injection h with h
            rw [← hv]
            exact (congrArg Prod.snd h).symm
    · cases h
    · cases h
    · cases h

theorem mqtt_extract_uint_all_cont (l : List Byte) (n : Nat) (hn : n ≤ l.length)
    (hc : ∀ x ∈ l.take (min 4 n), has_continuation_bit x) :
    mqtt_extract_uint ⟨l, n⟩ = .fail := by
  simp only [mqtt_extract_uint, fieldset_unpack_uint]
  split
  · rfl
  · rename_i h1
    by_cases h4 : n ≤ 4
    · rw [unpack_loop_all_cont n l 0 0 0 (by omega) (by omega)
        (by simpa [Nat.min_eq_right h4] using hc)]
      simp
    · obtain ⟨v, r, hu⟩ := unpack_loop_in_bounds n l 0 0 0 (by omega) (by omega)
      rw [hu]
      rcases unpack_loop_ok_inv _ _ _ _ _ _ _ hu with ⟨_, h0⟩ | ⟨pre, b, rest, hl, hpc, hb, hlt, hr, hv⟩
      · simp [h0]
      · have : 4 ≤ pre.length := by
          by_contra hlt4
          apply hb
          apply hc
          rw [hl, Nat.min_eq_left (by omega), List.take_append_eq_append_take]
          apply List.mem_append_right
          have : 4 - pre.length = (3 - pre.length) + 1 := by omega
          rw [this, List.take_succ_cons]
          simp
        have : r > 4 := by omega
        simp [this]

theorem mqtt_extract_uint_consumes (c c' : Cursor) (v : Nat)
    (h : mqtt_extract_uint c = .ok (c', v)) :
    ∃ k, 1 ≤ k ∧ k ≤ 4 ∧ k ≤ c.payload_size ∧ k ≤ c.payload.length ∧
      c' = ⟨c.payload.drop k, c.payload_size - k⟩ := by
  obtain ⟨l, n⟩ := c
  obtain ⟨pre, b, rest, hl, _, _, h4, hn, hc, _⟩ := mqtt_extract_uint_ok_inv l n c' v h
  refine ⟨pre.length + 1, by omega, by omega, by simpa using hn, ?_, ?_⟩
  · simp [hl]
  · rw [hc]
    simp only [hl]
    rw [show pre ++ b :: rest = (pre ++ [b]) ++ rest by simp,
      show pre.length + 1 = (pre ++ [b]).length by simp, List.drop_left]

theorem exists_first_clear (l : List Byte) (h : ¬ ∀ x ∈ l, has_continuation_bit x) :
    ∃ pre b rest, l = pre ++ b :: rest ∧ (∀ x ∈ pre, has_continuation_bit x) ∧
      ¬ has_continuation_bit b := by
  induction l with
  | nil => simp at h
  | cons a l ih =>
    by_cases ha : has_continuation_bit a
    · have : ¬ ∀ x ∈ l, has_continuation_bit x := by
        intro hl; apply h; intro x hx
        rcases List.mem_cons.mp hx with rfl | hx
        · exact ha
        · exact hl x hx
      obtain ⟨pre, b, rest, hl, hc, hb⟩ := ih this
      refine ⟨a :: pre, b, rest, by simp [hl], ?_, hb⟩
      intro x hx
      rcases List.mem_cons.mp hx with rfl | hx
      · exact ha
      · exact hc x hx
    · exact ⟨[], a, l, rfl, by simp, ha⟩

theorem mqtt_extract_uint_fail_of_cont (c : Cursor) (h : c.payload_size ≤ c.payload.length)
    (hc : ∀ x ∈ c.payload.take (min 4 c.payload_size), has_continuation_bit x) :
    mqtt_extract_uint c = .fail :=
  mqtt_extract_uint_all_cont c.payload c.payload_size h hc

theorem mqtt_extract_uint_fail_iff_aux (c : Cursor) (h : c.payload_size ≤ c.payload.length) :
    mqtt_extract_uint c = .fail ↔
      (c.payload_size = 0 ∨
        ∀ x ∈ c.payload.take (min 4 c.payload_size), has_continuation_bit x) := by
  obtain ⟨l, n⟩ := c
  simp only at h ⊢
  constructor
  · intro hf
    by_contra hcon
    rw [not_or] at hcon
    obtain ⟨hn0, hnc⟩ := hcon
    obtain ⟨pre, b, rest, hl, hc, hb⟩ := exists_first_clear _ hnc
    have hlen : (l.take (min 4 n)).length = min 4 n := by
      rw [List.length_take]; omega
    have hpre : pre.length < min 4 n := by
      rw [← hlen, hl]; simp
    have hl2 : l = pre ++ b :: (rest ++ l.drop (min 4 n)) := by
      conv_lhs => rw [← List.take_append_drop (min 4 n) l, hl]
      simp
    rw [hl2, mqtt_extract_uint_stop pre b _ n hc hb (by omega) (by omega)] at hf
    cases hf
  · rintro (h0 | hc)
    · subst h0; simp [mqtt_extract_uint]
    · exact mqtt_extract_uint_all_cont l n h hc

theorem take_past_header (pre : List Byte) (b : Byte) (rest : List Byte) (n : Nat)
    (h : pre.length < n) :
    (pre ++ b :: rest).take n = pre ++ b :: rest.take (n - (pre.length + 1)) := by
  obtain ⟨k, rfl⟩ : ∃ k, n = pre.length + (k + 1) := ⟨n - pre.length - 1, by omega⟩
  rw [List.take_append, List.take_succ_cons]
  congr 3
  omega

theorem mqtt_extract_uint_truncated (pre : List Byte) (b : Byte) (rest : List Byte)
    (hc : ∀ x ∈ pre, has_continuation_bit x) (hb : ¬ has_continuation_bit b)
    (h4 : pre.length < 4) (n : Nat) (hn : n < (pre ++ b :: rest).length) :
    mqtt_extract_uint ⟨(pre ++ b :: rest).take n, ((pre ++ b :: rest).take n).length % 2 ^ 32⟩
        = .fail ∨
      ∃ m, m ≤ n ∧ pre.length < m ∧
        mqtt_extract_uint ⟨(pre ++ b :: rest).take n, ((pre ++ b :: rest).take n).length % 2 ^ 32⟩
          = .ok (⟨rest.take (n - (pre.length + 1)), m - (pre.length + 1)⟩,
              varint_accumulate (pre ++ [b]) 0 0 % 2 ^ 32) := by
  have hlen : ((pre ++ b :: rest).take n).length = n := by
    rw [List.length_take]; omega
  rw [hlen]
  have hm : n % 2 ^ 32 ≤ n := Nat.mod_le _ _
  by_cases hcase : n % 2 ^ 32 ≤ pre.length
  · left
    apply mqtt_extract_uint_all_cont
    · rw [hlen]; exact hm
    · intro x hx
      apply hc
      have e : ((pre ++ b :: rest).take n).take (min 4 (n % 2 ^ 32))
          = pre.take (min 4 (n % 2 ^ 32)) := by
        rw [List.take_take, List.take_append_of_le_length (by omega)]
        congr 1
        omega
      rw [e] at hx
      exact List.mem_of_mem_take hx
  · right
    refine ⟨n % 2 ^ 32, hm, by omega, ?_⟩
    rw [take_past_header pre b rest n (by omega)]
    exact mqtt_extract_uint_stop pre b _ _ hc hb h4 (by omega)

/-! ## The variable-byte encoding -/

theorem cont_ofNat (x : Nat) (h : x < 128) :
    has_continuation_bit (Fin.ofNat (x + 128) : Byte) := by
  unfold has_continuation_bit
  rw [byte_top_bit]
  simp [Fin.ofNat]; omega

theorem not_cont_ofNat (x : Nat) (h : x < 128) :
    ¬ has_continuation_bit (Fin.ofNat x : Byte) := by
  unfold has_continuation_bit
  rw [byte_top_bit]
  simp [Fin.ofNat]; omega

theorem mqtt_extract_uint_encode (v : Nat) (hv : v < 2 ^ 28) (rest : List Byte) (n : Nat)
    (hn : (mqtt_varint v).length ≤ n) :
    mqtt_extract_uint ⟨mqtt_varint v ++ rest, n⟩
      = .ok (⟨rest, n - (mqtt_varint v).length⟩, v) := by
  unfold mqtt_varint at *
  simp only [encode_varint] at *
  split_ifs at * with h1 h2 h3
  · have := mqtt_extract_uint_stop [] (Fin.ofNat v) rest n (by simp) (not_cont_ofNat v h1)
      (by simp) (by simpa using hn)
    simp only [List.nil_append, List.length_nil, Nat.zero_add] at this
    simp only [List.cons_append, List.nil_append, List.length_cons, List.length_nil, this]
    simp [varint_accumulate, land_127, Nat.shiftLeft_eq, Fin.ofNat]
    omega
  · have := mqtt_extract_uint_stop [Fin.ofNat (v % 128 + 128)] (Fin.ofNat (v / 128)) rest n
      (by simpa using cont_ofNat (v % 128) (by omega)) (not_cont_ofNat _ h2)
      (by simp) (by simpa using hn)
    simp only [List.cons_append, List.nil_append, List.length_cons, List.length_nil] at this ⊢
    rw [this]
    simp [varint_accumulate, land_127, Nat.shiftLeft_eq, Fin.ofNat]
    omega
  · have := mqtt_extract_uint_stop [Fin.ofNat (v % 128 + 128), Fin.ofNat (v / 128 % 128 + 128)]
      (Fin.ofNat (v / 128 / 128)) rest n
      (by
        intro x hx
        simp only [List.mem_cons, List.mem_singleton, List.not_mem_nil, or_false] at hx
        rcases hx with rfl | rfl
        · exact cont_ofNat (v % 128) (by omega)
        · exact cont_ofNat (v / 128 % 128) (by omega))
      (not_cont_ofNat _ h3) (by simp) (by simpa using hn)
    simp only [List.cons_append, List.nil_append, List.length_cons, List.length_nil] at this ⊢
    rw [this]
    simp [varint_accumulate, land_127, Nat.shiftLeft_eq, Fin.ofNat]
    omega
  · have := mqtt_extract_uint_stop [Fin.ofNat (v % 128 + 128), Fin.ofNat (v / 128 % 128 + 128),
        Fin.ofNat (v / 128 / 128 % 128 + 128)]
      (Fin.ofNat (v / 128 / 128 / 128 % 128)) rest n
      (by
        intro x hx
        simp only [List.mem_cons, List.mem_singleton, List.not_mem_nil, or_false] at hx
        rcases hx with rfl | rfl | rfl
        · exact cont_ofNat (v % 128) (by omega)
        · exact cont_ofNat (v / 128 % 128) (by omega)
        · exact cont_ofNat (v / 128 / 128 % 128) (by omega))
      (not_cont_ofNat _ (by omega)) (by simp) (by simpa using hn)
    simp only [List.cons_append, List.nil_append, List.length_cons, List.length_nil] at this ⊢
    rw [this]
    simp [varint_accumulate, land_127, Nat.shiftLeft_eq, Fin.ofNat]
    omega

theorem mqtt_varint_length (v : Nat) : 1 ≤ (mqtt_varint v).length ∧ (mqtt_varint v).length ≤ 4 := by
  unfold mqtt_varint
  simp only [encode_varint]
  split_ifs <;> simp

theorem mqtt_varint_examples :
    mqtt_varint 0 = [0x00] ∧ mqtt_varint 127 = [0x7F] ∧ mqtt_varint 128 = [0x80, 0x01] ∧
    mqtt_varint 16383 = [0xFF, 0x7F] ∧ mqtt_varint 16384 = [0x80, 0x80, 0x01] ∧
    mqtt_varint 2097151 = [0xFF, 0xFF, 0x7F] ∧ mqtt_varint 2097152 = [0x80, 0x80, 0x80, 0x01] ∧
    mqtt_varint 268435455 = [0xFF, 0xFF, 0xFF, 0x7F] := by
  decide

/-! ## `validate_utf8` returns `-1` on every terminated buffer -/

theorem getElem?_text_nul (text : List Byte) (j : Nat) (h : j ≤ text.length) :
    ∃ c, (text ++ [0])[j]? = some c ∧ (j = text.length → c = 0) := by
  rcases Nat.lt_or_ge j text.length with hlt | hge
  · refine ⟨text[j], ?_, by omega⟩
    rw [List.getElem?_append_left hlt]
    exact List.getElem?_eq_getElem hlt
  · have : j = text.length := by omega
    subst this
    exact ⟨0, by simp, fun _ => rfl⟩

theorem utf8_continuation_spec (text : List Byte) :
    ∀ n i cp, i < text.length →
      utf8_continuation (text ++ [0]) n i cp = .ok none ∨
      ∃ cp', utf8_continuation (text ++ [0]) n i cp = .ok (some (i + n, cp')) ∧
        i + n < text.length := by
  intro n
  induction n with
  | zero => intro i cp h; right; exact ⟨cp, rfl, h⟩
  | succ n ih =>
    intro i cp h
    obtain ⟨c, hc, hz⟩ := getElem?_text_nul text (i + 1) (by omega)
    simp only [utf8_continuation, hc]
    split
    · left; rfl
    · rename_i hcont
      have hlt : i + 1 < text.length := by
        by_contra hge
        have : c = 0 := hz (by omega)
        subst this
        simp at hcont
      rcases ih (i + 1) ((cp <<< 6) ||| (c.val &&& 0x3F)) hlt with h0 | ⟨cp', h1, h2⟩
      · left; exact h0
      · right; exact ⟨cp', by rw [h1]; congr 3; omega, by omega⟩

theorem validate_utf8_loop_total (text : List Byte) :
    ∀ fuel i, i ≤ text.length → text.length - i ≤ fuel →
      validate_utf8_loop (text ++ [0]) text.length fuel i = .ok (-1) := by
  intro fuel
  induction fuel with
  | zero =>
    intro i h1 h2
    have : ¬ ((i : Int) < (text.length : Int)) := by omega
    simp [validate_utf8_loop, this]
  | succ fuel ih =>
    intro i h1 h2
    simp only [validate_utf8_loop]
    split
    · rename_i hi
      have hlt : i < text.length := by omega
      obtain ⟨c, hc, _⟩ := getElem?_text_nul text i h1
      simp only [hc]
      split
      · rfl
      · rename_i codelen codepoint _
        split
        · rfl
        · rcases utf8_continuation_spec text (codelen - 1) i codepoint hlt with h0 | ⟨cp', hs, hb⟩
          · simp only [h0]
          · simp only [hs]
            split_ifs <;> first | rfl | exact ih _ (by omega) (by omega)
    · rfl

theorem validate_utf8_total (text : List Byte) (h : text.length ≤ 65536) :
    validate_utf8 (text ++ [0]) text.length = .ok (-1) := by
  have : ¬ ((text.length : Int) < 0 ∨ (text.length : Int) > 65536) := by omega
  simp only [validate_utf8, this, if_false]
  exact validate_utf8_loop_total text _ 0 (by omega) (by simp)

/-! ## String extraction -/

theorem mqtt_extract_string_ok_inv (c c' : Cursor) (m : Int) (text : List Byte) (L : Nat)
    (h : mqtt_extract_string c m = .ok (c', text, L)) :
    L + 2 ≤ c.payload_size ∧ L + 2 ≤ c.payload.length ∧
      c' = ⟨c.payload.drop (L + 2), c.payload_size - (L + 2)⟩ := by
  unfold mqtt_extract_string at h
  split at h
  · cases h
  · split at h
    · rename_i b0 b1 rest hp
      simp only at h
      split at h
      · cases h
      · split at h
        · cases h
        · split at h
          · split at h
            · cases h
            · injection h with h
              injection h with h1 h2
              injection h2 with h2 h3
              subst h3
              rw [hp]
              refine ⟨by omega, by simp only [List.length_cons]; omega, ?_⟩
              rw [← h1, hp]
          · cases h
          · cases h
          · cases h
    · cases h

theorem mqtt_extract_string_cons (b0 b1 : Byte) (rest : List Byte) (n : Nat) (max_length : Int)
    (h1 : 2 + (b0.val * 256 + b1.val) ≤ n) (h2 : ((b0.val * 256 + b1.val : Nat) : Int) ≤ max_length)
    (h3 : b0.val * 256 + b1.val ≤ rest.length) :
    mqtt_extract_string ⟨b0 :: b1 :: rest, n⟩ max_length
      = .ok (⟨rest.drop (b0.val * 256 + b1.val), n - (b0.val * 256 + b1.val + 2)⟩,
          rest.take (b0.val * 256 + b1.val) ++ [0], b0.val * 256 + b1.val) := by
  have hn : ¬ n < 2 := by omega
  have hc : ¬ (n < 2 + (b0.val * 256 + b1.val) ∨
      ((b0.val * 256 + b1.val : Nat) : Int) > max_length) := by omega
  have hr : ¬ rest.length < b0.val * 256 + b1.val := by omega
  have hlen : (rest.take (b0.val * 256 + b1.val)).length = b0.val * 256 + b1.val := by
    rw [List.length_take]; omega
  have hv := validate_utf8_total (rest.take (b0.val * 256 + b1.val)) (by rw [hlen]; omega)
  rw [hlen] at hv
  simp only [mqtt_extract_string, hn, if_false, hc, hr, hv]
  simp

theorem length_prefixed_length (s : List Byte) : (length_prefixed s).length = 2 + s.length := by
  simp [length_prefixed]; omega

theorem mqtt_extract_string_prefixed (s rest : List Byte) (n : Nat) (hs : s.length ≤ 65535)
    (hn : 2 + s.length ≤ n) :
    mqtt_extract_string ⟨length_prefixed s ++ rest, n⟩ 65535
      = .ok (⟨rest, n - (s.length + 2)⟩, s ++ [0], s.length) := by
  have e : (Fin.ofNat (s.length / 256) : Byte).val * 256 + (Fin.ofNat (s.length % 256) : Byte).val
      = s.length := by
    simp [Fin.ofNat]; omega
  have := mqtt_extract_string_cons (Fin.ofNat (s.length / 256)) (Fin.ofNat (s.length % 256))
    (s ++ rest) n 65535 (by rw [e]; omega) (by rw [e]; omega) (by rw [e]; simp)
  rw [e] at this
  simpa [length_prefixed] using this

theorem c_str_terminated (s : List Byte) (h : ∀ b ∈ s, b ≠ 0) : c_str (s ++ [0]) = s := by
  induction s with
  | nil => simp [c_str]
  | cons a s ih =>
    have ha : a ≠ 0 := h a (by simp)
    have ha' : a.val ≠ 0 := fun h0 => ha (Fin.ext h0)
    have := ih (fun b hb => h b (by simp [hb]))
    unfold c_str at this ⊢
    rw [List.cons_append, List.takeWhile_cons_of_pos (by simpa using ha'), this]

/-! ## One pass of the loop body -/

theorem write_property_int_ok (dict : PyDict) (t v : Nat) :
    ∃ d, write_property_int dict t v = .ok d := ⟨_, rfl⟩

theorem parse_property_consumes (F : List Byte → Option PyStr) (dict : PyDict)
    (payload : List Byte) (size : Nat) (s : LoopState) (hsize : 1 < size)
    (h : parse_property F dict payload size = .ok s) :
    ∃ k, 2 ≤ k ∧ k ≤ size ∧ s.payload = payload.drop k ∧ s.properties_size = size - k := by
  unfold parse_property at h
  split at h
  · cases h
  · rename_i t payload
    simp only at h
    split at h
    -- 1 byte value
    iterate 8
      focus
        split at h
        · cases h
        · simp only [write_property_int] at h
          cases h
          exact ⟨2, by omega, by omega, by simp, by simp only []; omega⟩
    -- 2 bytes value
    iterate 4
      focus
        split at h
        · cases h
        · split at h
          · simp only [write_property_int] at h
            cases h
            exact ⟨3, by omega, by omega, by simp, by simp only []; omega⟩
          · cases h
    -- 4 bytes value
    iterate 4
      focus
        split at h
        · cases h
        · split at h
          · simp only [write_property_int] at h
            cases h
            exact ⟨5, by omega, by omega, by simp, by simp only []; omega⟩
          · cases h
    -- variable byte integer
    · split at h
      · rename_i c v hu
        simp only [write_property_int] at h
        cases h
        obtain ⟨k, h1, _, h3, _, hc⟩ := mqtt_extract_uint_consumes _ _ _ hu
        subst hc
        exact ⟨k + 1, by omega, by simp only [] at h3; omega, by simp, by simp only []; omega⟩
      · cases h
      · cases h
      · cases h
    -- utf-8 encoded string
    iterate 7
      focus
        split at h
        · rename_i c text L hs
          obtain ⟨h1, _, hc⟩ := mqtt_extract_string_ok_inv _ _ _ _ _ hs
          subst hc
          split at h
          · cases h
            exact ⟨L + 2 + 1, by omega, by simp only [] at h1; omega, by simp,
              by simp only []; omega⟩
          · cases h
          · cases h
          · cases h
        · cases h
        · cases h
        · cases h
    -- utf-8 string pair
    · split at h
      · rename_i c text L hs
        obtain ⟨h1, _, hc⟩ := mqtt_extract_string_ok_inv _ _ _ _ _ hs
        subst hc
        split at h
        · rename_i c2 text2 L2 hs2
          obtain ⟨h2, _, hc2⟩ := mqtt_extract_string_ok_inv _ _ _ _ _ hs2
          subst hc2
          split at h
          · cases h
            exact ⟨L + 2 + (L2 + 2) + 1, by omega, by simp only [] at h1 h2; omega,
              by simp, by simp only []; omega⟩
          · cases h
          · cases h
          · cases h
        · cases h
        · cases h
        · cases h
      · cases h
      · cases h
      · cases h
    -- binary data
    iterate 2
      focus
        split at h
        · cases h
        · split at h
          · split at h
            · cases h
            · cases h
              rename_i b0 b1 _ _
              exact ⟨2 + (b0.val * 256 + b1.val) + 1, by omega, by omega, by simp,
                by simp only []; omega⟩
          · cases h
    -- unknown code
    · cases h

theorem user_property_entry_length (k v : List Byte) :
    (user_property_entry k v).length = 1 + (2 + k.length) + (2 + v.length) := by
  simp [user_property_entry, length_prefixed]; omega

theorem parse_property_user_property (F : List Byte → Option PyStr) (dict : PyDict)
    (k v rest : List Byte) (pk pv : PyStr) (size : Nat)
    (hk : accepted_text F k pk) (hv : accepted_text F v pv)
    (hsize : 1 + (2 + k.length) + (2 + v.length) ≤ size) :
    parse_property F dict (user_property_entry k v ++ rest) size
      = .ok ⟨PyDict_update_list (ensure_list dict "user_property") "user_property"
            (fun listObj => listObj ++ [PyObject.tuple (.unicode pk) (.unicode pv)]),
          rest, size - (1 + (2 + k.length) + (2 + v.length))⟩ := by
  obtain ⟨hk1, hk2, hk3⟩ := hk
  obtain ⟨hv1, hv2, hv3⟩ := hv
  have e38 : ((38 : Byte) : Nat) = 38 := rfl
  have en : mqtt_property 38 = "user_property" := rfl
  have es : size - 1 - (k.length + 2) - (v.length + 2)
      = size - (1 + (2 + k.length) + (2 + v.length)) := by omega
  simp only [user_property_entry, List.cons_append, List.append_assoc, parse_property]
  rw [mqtt_extract_string_prefixed k _ (size - 1) hk1 (by omega)]
  simp only
  rw [mqtt_extract_string_prefixed v _ _ hv1 (by omega)]
  simp only [write_property_string, mqtt_property_type_up, if_true,
    c_str_terminated k hk2, c_str_terminated v hv2, hk3, hv3, e38, en, es]

theorem parse_property_binary (F : List Byte → Option PyStr) (dict : PyDict) (t : Byte)
    (blob rest : List Byte) (size : Nat) (ht : t = 0x09 ∨ t = 0x16)
    (hb : blob.length ≤ 65535) (hsize : 1 + (2 + blob.length) ≤ size) :
    parse_property F dict (t :: (length_prefixed blob ++ rest)) size
      = .ok ⟨dict, rest, size - (1 + (2 + blob.length))⟩ := by
  have e : (Fin.ofNat (blob.length / 256) : Byte).val * 256
      + (Fin.ofNat (blob.length % 256) : Byte).val = blob.length := by
    simp [Fin.ofNat]; omega
  have h1 : ¬ size - 1 < 2 := by omega
  have h2 : ¬ blob.length + 2 > size - 1 := by omega
  have h3 : size - 1 - (2 + blob.length) = size - (1 + (2 + blob.length)) := by omega
  have h4 : List.drop (2 + blob.length) (Fin.ofNat (blob.length / 256) ::
      Fin.ofNat (blob.length % 256) :: (blob ++ rest)) = rest := by
    have e2 : 2 + blob.length = (blob.length + 1) + 1 := by omega
    rw [e2, List.drop_succ_cons, List.drop_succ_cons, List.drop_left]
  rcases ht with rfl | rfl
  · have e9 : ((9 : Byte) : Nat) = 9 := rfl
    simp only [length_prefixed, List.cons_append, parse_property, e9, h1, if_false, e, h2, h3, h4]
  · have e22 : ((22 : Byte) : Nat) = 22 := rfl
    simp only [length_prefixed, List.cons_append, parse_property, e22, h1, if_false, e, h2, h3, h4]

theorem parse_property_unknown (F : List Byte → Option PyStr) (dict : PyDict) (t : Byte)
    (rest : List Byte) (size : Nat) (ht : t.val ∉ defined_identifiers) :
    parse_property F dict (t :: rest) size = .fail := by
  simp only [defined_identifiers, List.mem_cons, List.mem_singleton, List.not_mem_nil, or_false,
    not_or] at ht
  unfold parse_property
  simp only
  split
  all_goals first | rfl | (exfalso; omega)

/-! ## The parsing loop -/

theorem parse_properties_done (F : List Byte → Option PyStr) (fuel : Nat) (s : LoopState)
    (h : s.properties_size ≤ 1) : parse_properties F fuel s = .ok s := by
  have : ¬ s.properties_size > 1 := by omega
  cases fuel <;> simp [parse_properties, this]

theorem parse_properties_step (F : List Byte → Option PyStr) (fuel : Nat) (s s' : LoopState)
    (hs : 1 < s.properties_size)
    (hp : parse_property F s.dictObj s.payload s.properties_size = .ok s') :
    parse_properties F (fuel + 1) s = parse_properties F fuel s' := by
  rw [parse_properties]
  simp only [gt_iff_lt, hs, if_true, hp]

theorem parse_properties_step_fail (F : List Byte → Option PyStr) (fuel : Nat) (s : LoopState)
    (hs : 1 < s.properties_size)
    (hp : parse_property F s.dictObj s.payload s.properties_size = .fail) :
    parse_properties F (fuel + 1) s = .fail := by
  rw [parse_properties]
  simp only [gt_iff_lt, hs, if_true, hp]

theorem parse_properties_fuel_succ (F : List Byte → Option PyStr) :
    ∀ fuel s, s.properties_size ≤ 2 * fuel + 1 →
      parse_properties F (fuel + 1) s = parse_properties F fuel s := by
  intro fuel
  induction fuel with
  | zero =>
    intro s h
    rw [parse_properties_done F _ s (by omega), parse_properties_done F _ s (by omega)]
  | succ fuel ih =>
    intro s h
    rw [parse_properties, parse_properties]
    split
    · rename_i hs
      split
      · rename_i s' hp
        obtain ⟨k, h2, _, _, hk⟩ := parse_property_consumes F _ _ _ _ hs hp
        exact ih s' (by omega)
      · rfl
      · rfl
      · rfl
    · rfl

theorem parse_properties_fuel_ge (F : List Byte → Option PyStr) (fuel : Nat) (s : LoopState)
    (h : s.properties_size ≤ 2 * fuel + 1) :
    ∀ d, parse_properties F (fuel + d) s = parse_properties F fuel s := by
  intro d
  induction d with
  | zero => rfl
  | succ d ih =>
    rw [← Nat.add_assoc, parse_properties_fuel_succ F (fuel + d) s (by omega), ih]

theorem parse_properties_end (F : List Byte → Option PyStr) :
    ∀ fuel s e, parse_properties F fuel s = .ok e →
      e.properties_size ≤ 1 ∧ e.properties_size ≤ s.properties_size ∧
        e.payload = s.payload.drop (s.properties_size - e.properties_size) := by
  intro fuel
  induction fuel with
  | zero =>
    intro s e h
    rw [parse_properties] at h
    split at h
    · cases h
    · cases h; exact ⟨by omega, by omega, by simp⟩
  | succ fuel ih =>
    intro s e h
    rw [parse_properties] at h
    split at h
    · rename_i hs
      split at h
      · rename_i s' hp
        obtain ⟨k, h2, h3, h4, h5⟩ := parse_property_consumes F _ _ _ _ hs hp
        obtain ⟨i1, i2, i3⟩ := ih s' e h
        refine ⟨i1, by omega, ?_⟩
        rw [i3, h4, List.drop_drop]
        congr 1
        omega
      · cases h
      · cases h
      · cases h
    · cases h; exact ⟨by omega, by omega, by simp⟩

/-! ## `extract_properties` -/

theorem extract_properties_of_loop (F : List Byte → Option PyStr) (buf : List Byte)
    (t : PyDict) (h : extract_properties F buf = .ok t) :
    ∃ e, extract_properties_loop F buf = .ok e ∧ e.dictObj = t := by
  unfold extract_properties at h
  split at h
  · rename_i e he
    injection h with h
    exact ⟨e, he, h⟩
  · cases h
  · cases h
  · cases h

theorem extract_properties_loop_encoded (F : List Byte → Option PyStr) (region : List Byte)
    (h : region.length < 2 ^ 28) :
    extract_properties_loop F (mqtt_varint region.length ++ region)
      = parse_properties F region.length ⟨[], region, region.length⟩ := by
  obtain ⟨h1, h4⟩ := mqtt_varint_length region.length
  have hlen : (mqtt_varint region.length ++ region).length % 2 ^ 32
      = (mqtt_varint region.length).length + region.length := by
    rw [List.length_append]
    apply Nat.mod_eq_of_lt
    omega
  unfold extract_properties_loop
  rw [hlen, mqtt_extract_uint_encode region.length h region _ (by omega)]
  simp

theorem extract_properties_size_zero (F : List Byte → Option PyStr) (buf : List Byte)
    (h : buf.length % 2 ^ 32 = 0) : extract_properties F buf = .fail := by
  have h1 : mqtt_extract_uint ⟨buf, buf.length % 2 ^ 32⟩ = .fail := by
    rw [h]; simp [mqtt_extract_uint]
  unfold extract_properties extract_properties_loop
  rw [h1]

theorem head?_replicate_pos (n : Nat) (a : Byte) (h : 0 < n) :
    (List.replicate n a).head? = some a := by
  cases n with
  | zero => omega
  | succ n => rfl

/-! ## The claims -/

/-- C1: for all bytes `hi`, `lo`, `q`, decoding the six-byte buffer
`05 21 hi lo 24 q` succeeds with exactly the table
`{receive_maximum: [256*hi+lo], max_qos: [q]}`; in particular
`05 21 00 0A 24 01` gives `{receive_maximum: [10], max_qos: [1]}`. -/
theorem extract_properties_receive_maximum_max_qos (F : List Byte → Option PyStr)
    (hi lo q : Byte) :
    extract_properties F [0x05, 0x21, hi, lo, 0x24, q]
        = .ok [("receive_maximum", [.long (256 * hi.val + lo.val)]), ("max_qos", [.long q.val])] ∧
      extract_properties F [0x05, 0x21, 0x00, 0x0A, 0x24, 0x01]
        = .ok [("receive_maximum", [.long 10]), ("max_qos", [.long 1])] := by
  constructor
  · rw [Nat.mul_comm]; rfl
  · rfl

/-- C2 (the code at the failing inputs): `validate_utf8` returns `-1` for the
strings the claim lists as for any other, and the caller tests
`!validate_utf8(...)`, so `mqtt_extract_string` returns success for a string
with a control character, an embedded NUL, a surrogate, an overlong 3-byte or
4-byte form or a non-character, and `extract_properties` returns a table that
holds the control character. -/
theorem mqtt_extract_string_accepts_invalid_utf8 :
    validate_utf8 [0x01, 0x00] 1 = .ok (-1) ∧
    mqtt_extract_string ⟨[0x00, 0x01, 0x01], 3⟩ 65535 = .ok (⟨[], 0⟩, [0x01, 0x00], 1) ∧
    mqtt_extract_string ⟨[0x00, 0x01, 0x7F], 3⟩ 65535 = .ok (⟨[], 0⟩, [0x7F, 0x00], 1) ∧
    mqtt_extract_string ⟨[0x00, 0x03, 0x61, 0x00, 0x62], 5⟩ 65535
      = .ok (⟨[], 0⟩, [0x61, 0x00, 0x62, 0x00], 3) ∧
    mqtt_extract_string ⟨[0x00, 0x03, 0xED, 0xA0, 0x80], 5⟩ 65535
      = .ok (⟨[], 0⟩, [0xED, 0xA0, 0x80, 0x00], 3) ∧
    mqtt_extract_string ⟨[0x00, 0x03, 0xE0, 0x80, 0x80], 5⟩ 65535
      = .ok (⟨[], 0⟩, [0xE0, 0x80, 0x80, 0x00], 3) ∧
    mqtt_extract_string ⟨[0x00, 0x04, 0xF0, 0x80, 0x80, 0x80], 6⟩ 65535
      = .ok (⟨[], 0⟩, [0xF0, 0x80, 0x80, 0x80, 0x00], 4) ∧
    mqtt_extract_string ⟨[0x00, 0x03, 0xEF, 0xBF, 0xBE], 5⟩ 65535
      = .ok (⟨[], 0⟩, [0xEF, 0xBF, 0xBE, 0x00], 3) ∧
    extract_properties (fun s => some s) [0x04, 0x03, 0x00, 0x01, 0x01]
      = .ok [("content_type", [.unicode [0x01]])] :=
  ⟨rfl, rfl, rfl, rfl, rfl, rfl, rfl, rfl, rfl⟩

/-- C3 (counterexample): the buffer `01 01` declares one properties byte, a lone
identifier `0x01` with no value; the loop is not entered, the counter is 1
when it ends, and the decode succeeds with the empty table. -/
theorem dangling_identifier_accepted :
    extract_properties_loop (fun s => some s) [0x01, 0x01] = .ok ⟨[], [0x01], 1⟩ ∧
      extract_properties (fun s => some s) [0x01, 0x01] = .ok [] :=
  ⟨rfl, rfl⟩

/-- C3 (amended): whenever `extract_properties` succeeds, the length prefix
decoded to some `L`, the loop ended with the counter at 0 or 1, and the
pointer then stands exactly `L - counter` bytes after the length prefix: the
whole properties decoded account for the declared length but for at most one
trailing byte, which is not examined. -/
theorem extract_properties_accounting (F : List Byte → Option PyStr) (buf : List Byte)
    (t : PyDict) (h : extract_properties F buf = .ok t) :
    ∃ c L e, mqtt_extract_uint ⟨buf, buf.length % 2 ^ 32⟩ = .ok (c, L) ∧
      extract_properties_loop F buf = .ok e ∧ e.dictObj = t ∧
      e.properties_size ≤ 1 ∧ e.payload = c.payload.drop (L - e.properties_size) := by
  obtain ⟨e, he, het⟩ := extract_properties_of_loop F buf t h
  have he' := he
  unfold extract_properties_loop at he'
  split at he'
  · rename_i c L hp
    split at he'
    · cases he'
    · obtain ⟨h1, _, h3⟩ := parse_properties_end F _ _ _ he'
      exact ⟨c, L, e, hp, he, het, h1, h3⟩
  · cases he'
  · cases he'
  · cases he'

/-- Witness of C3 (amended) at the buffer `05 21 00 0A 24 01`. -/
theorem extract_properties_accounting_witness :
    extract_properties (fun s => some s) [0x05, 0x21, 0x00, 0x0A, 0x24, 0x01]
        = .ok [("receive_maximum", [.long 10]), ("max_qos", [.long 1])] ∧
    ∃ c L e, mqtt_extract_uint ⟨[0x05, 0x21, 0x00, 0x0A, 0x24, 0x01],
          [0x05, 0x21, 0x00, 0x0A, 0x24, (0x01 : Byte)].length % 2 ^ 32⟩ = .ok (c, L) ∧
      extract_properties_loop (fun s => some s) [0x05, 0x21, 0x00, 0x0A, 0x24, 0x01] = .ok e ∧
      e.dictObj = [("receive_maximum", [.long 10]), ("max_qos", [.long 1])] ∧
      e.properties_size ≤ 1 ∧ e.payload = c.payload.drop (L - e.properties_size) :=
  ⟨rfl, extract_properties_accounting (fun s => some s) [0x05, 0x21, 0x00, 0x0A, 0x24, 0x01]
    [("receive_maximum", [.long 10]), ("max_qos", [.long 1])] rfl⟩

/-- C4 (counterexample): the buffers `01 00` and `01 2B` declare a properties
length of 1, which the one following byte covers, and that byte (`0x00`,
`0x2B`) is not a defined identifier; the loop is not entered and the decode
succeeds with the empty table. -/
theorem unknown_identifier_length_one_accepted :
    mqtt_extract_uint ⟨[0x01, 0x00], 2⟩ = .ok (⟨[0x00], 1⟩, 1) ∧
      (0x00 : Byte).val ∉ defined_identifiers ∧
      extract_properties (fun s => some s) [0x01, 0x00] = .ok [] ∧
      mqtt_extract_uint ⟨[0x01, 0x2B], 2⟩ = .ok (⟨[0x2B], 1⟩, 1) ∧
      (0x2B : Byte).val ∉ defined_identifiers ∧
      extract_properties (fun s => some s) [0x01, 0x2B] = .ok [] :=
  ⟨rfl, by decide, rfl, rfl, by decide, rfl⟩

/-- C4 (amended): for every buffer whose declared properties length `L` is at
least 2 and does not exceed the bytes that follow the length prefix, and whose
first identifier byte is not one of the 27 defined identifiers,
`extract_properties` fails. -/
theorem unknown_first_identifier_rejected (F : List Byte → Option PyStr) (buf : List Byte)
    (c : Cursor) (L : Nat)
    (hp : mqtt_extract_uint ⟨buf, buf.length % 2 ^ 32⟩ = .ok (c, L))
    (hL : 2 ≤ L) (hfit : L ≤ c.payload.length)
    (hid : ∀ t, c.payload.head? = some t → t.val ∉ defined_identifiers) :
    extract_properties F buf = .fail := by
  have hloop : extract_properties_loop F buf = .fail := by
    unfold extract_properties_loop
    rw [hp]
    simp only
    split
    · rfl
    · obtain ⟨l, n⟩ := c
      cases l with
      | nil => simp at hfit; omega
      | cons t rest =>
        obtain ⟨fuel, rfl⟩ : ∃ fuel, L = fuel + 1 := ⟨L - 1, by omega⟩
        exact parse_properties_step_fail F fuel _ (by simp only []; omega)
          (parse_property_unknown F _ t rest _ (hid t rfl))
  unfold extract_properties
  rw [hloop]

/-- Witness of C4 (amended) at the buffer `02 2B 00`. -/
theorem unknown_first_identifier_rejected_witness :
    (mqtt_extract_uint ⟨[0x02, 0x2B, 0x00], [0x02, 0x2B, (0x00 : Byte)].length % 2 ^ 32⟩
        = .ok (⟨[0x2B, 0x00], 2⟩, 2) ∧ 2 ≤ 2 ∧
      2 ≤ (⟨[0x2B, 0x00], 2⟩ : Cursor).payload.length ∧
      (∀ t, (⟨[0x2B, 0x00], 2⟩ : Cursor).payload.head? = some t →
        t.val ∉ defined_identifiers)) ∧
    extract_properties (fun s => some s) [0x02, 0x2B, 0x00] = .fail :=
  ⟨⟨rfl, by decide, by decide, by intro t ht; cases ht; decide⟩,
    unknown_first_identifier_rejected (fun s => some s) [0x02, 0x2B, 0x00] ⟨[0x2B, 0x00], 2⟩ 2
      rfl (by decide) (by decide) (by intro t ht; cases ht; decide)⟩

/-- C5 (counterexample): the buffer with the User Property entries `("a","1")`
then `("b","2")` decodes to the pairs in wire order, `[("a","1"), ("b","2")]`,
not most-recent first. -/
theorem user_property_not_most_recent_first :
    extract_properties (fun s => some s)
        [0x0E, 0x26, 0x00, 0x01, 0x61, 0x00, 0x01, 0x31, 0x26, 0x00, 0x01, 0x62, 0x00, 0x01, 0x32]
      = .ok [("user_property",
          [.tuple (.unicode [0x61]) (.unicode [0x31]), .tuple (.unicode [0x62]) (.unicode [0x32])])] ∧
    extract_properties (fun s => some s)
        [0x0E, 0x26, 0x00, 0x01, 0x61, 0x00, 0x01, 0x31, 0x26, 0x00, 0x01, 0x62, 0x00, 0x01, 0x32]
      ≠ .ok [("user_property",
          [.tuple (.unicode [0x62]) (.unicode [0x32]), .tuple (.unicode [0x61]) (.unicode [0x31])])] :=
  ⟨rfl, by decide⟩

/-- C5 (amended): for every two User Property entries `(k1,v1)` then `(k2,v2)`
of accepted strings (at most 65535 bytes, no zero byte, accepted by the
interpreter), the buffer holding them in that order decodes to a table whose
`user_property` sequence holds both pairs in wire order, `[(k1,v1), (k2,v2)]`. -/
theorem user_property_wire_order (F : List Byte → Option PyStr)
    (k1 v1 k2 v2 : List Byte) (pk1 pv1 pk2 pv2 : PyStr)
    (hk1 : accepted_text F k1 pk1) (hv1 : accepted_text F v1 pv1)
    (hk2 : accepted_text F k2 pk2) (hv2 : accepted_text F v2 pv2) :
    extract_properties F
        (mqtt_varint (user_property_entry k1 v1 ++ user_property_entry k2 v2).length
          ++ (user_property_entry k1 v1 ++ user_property_entry k2 v2))
      = .ok [("user_property",
          [.tuple (.unicode pk1) (.unicode pv1), .tuple (.unicode pk2) (.unicode pv2)])] := by
  have l1 := user_property_entry_length k1 v1
  have l2 := user_property_entry_length k2 v2
  have b1 := hk1.1
  have b2 := hv1.1
  have b3 := hk2.1
  have b4 := hv2.1
  have hloop : extract_properties_loop F
      (mqtt_varint (user_property_entry k1 v1 ++ user_property_entry k2 v2).length
        ++ (user_property_entry k1 v1 ++ user_property_entry k2 v2))
      = .ok ⟨[("user_property",
          [.tuple (.unicode pk1) (.unicode pv1), .tuple (.unicode pk2) (.unicode pv2)])], [], 0⟩ := by
    rw [extract_properties_loop_encoded F _ (by rw [List.length_append]; omega)]
    obtain ⟨fuel, hf⟩ : ∃ fuel, (user_property_entry k1 v1 ++ user_property_entry k2 v2).length
        = fuel + 1 + 1 :=
      ⟨(user_property_entry k1 v1 ++ user_property_entry k2 v2).length - 2,
        by rw [List.length_append, l1, l2]; omega⟩
    have hlen := List.length_append (user_property_entry k1 v1) (user_property_entry k2 v2)
    rw [hf] at hlen ⊢
    rw [parse_properties_step F (fuel + 1) _ _ (show 1 < fuel + 1 + 1 by omega)
      (parse_property_user_property F _ k1 v1 _ pk1 pv1 _ hk1 hv1
        (show 1 + (2 + k1.length) + (2 + v1.length) ≤ fuel + 1 + 1 by omega))]
    have h2 := parse_property_user_property F
      (PyDict_update_list (ensure_list [] "user_property") "user_property"
        (fun listObj => listObj ++ [PyObject.tuple (.unicode pk1) (.unicode pv1)]))
      k2 v2 [] pk2 pv2 (fuel + 1 + 1 - (1 + (2 + k1.length) + (2 + v1.length))) hk2 hv2 (by omega)
    rw [List.append_nil] at h2
    rw [parse_properties_step F fuel _ _
        (show 1 < fuel + 1 + 1 - (1 + (2 + k1.length) + (2 + v1.length)) by omega) h2,
      parse_properties_done F _ _
        (show fuel + 1 + 1 - (1 + (2 + k1.length) + (2 + v1.length))
          - (1 + (2 + k2.length) + (2 + v2.length)) ≤ 1 by omega)]
    have e0 : fuel + 1 + 1 - (1 + (2 + k1.length) + (2 + v1.length))
        - (1 + (2 + k2.length) + (2 + v2.length)) = 0 := by omega
    rw [e0]
    rfl
  unfold extract_properties
  rw [hloop]

/-- Witness of C5 (amended) at `("a","1")` then `("b","2")`. -/
theorem user_property_wire_order_witness :
    (accepted_text (fun s => some s) [0x61] [0x61] ∧ accepted_text (fun s => some s) [0x31] [0x31] ∧
      accepted_text (fun s => some s) [0x62] [0x62] ∧ accepted_text (fun s => some s) [0x32] [0x32]) ∧
    extract_properties (fun s => some s)
        (mqtt_varint (user_property_entry [0x61] [0x31] ++ user_property_entry [0x62] [0x32]).length
          ++ (user_property_entry [0x61] [0x31] ++ user_property_entry [0x62] [0x32]))
      = .ok [("user_property",
          [.tuple (.unicode [0x61]) (.unicode [0x31]), .tuple (.unicode [0x62]) (.unicode [0x32])])] :=
  ⟨⟨⟨by simp, by simp, rfl⟩, ⟨by simp, by simp, rfl⟩, ⟨by simp, by simp, rfl⟩,
      ⟨by simp, by simp, rfl⟩⟩,
    user_property_wire_order (fun s => some s) [0x61] [0x31] [0x62] [0x32] [0x61] [0x31] [0x62] [0x32]
      ⟨by simp, by simp, rfl⟩ ⟨by simp, by simp, rfl⟩ ⟨by simp, by simp, rfl⟩
      ⟨by simp, by simp, rfl⟩⟩

/-- C6: for every buffer that is exactly a length prefix encoding `L` followed
by exactly `L` bytes and that decodes successfully, decoding any strict prefix
of the buffer (the empty buffer and cuts inside the length prefix included)
fails; the full-length buffer succeeds. -/
theorem truncated_buffer_rejected (F : List Byte → Option PyStr) (buf : List Byte)
    (c : Cursor) (L : Nat) (t : PyDict)
    (hp : mqtt_extract_uint ⟨buf, buf.length % 2 ^ 32⟩ = .ok (c, L))
    (hexact : c.payload.length = L) (hok : extract_properties F buf = .ok t)
    (n : Nat) (hn : n < buf.length) :
    extract_properties F (buf.take n) = .fail ∧
      extract_properties F (buf.take buf.length) = .ok t := by
  refine ⟨?_, by rw [List.take_length]; exact hok⟩
  obtain ⟨pre, b, rest, hl, hc, hb, h4, _, hcur, hv⟩ := mqtt_extract_uint_ok_inv _ _ _ _ hp
  subst hl
  have hrest : rest.length = L := by rw [hcur] at hexact; exact hexact
  have hloop : extract_properties_loop F ((pre ++ b :: rest).take n) = .fail := by
    unfold extract_properties_loop
    rcases mqtt_extract_uint_truncated pre b rest hc hb h4 n hn with hf | ⟨m, hm, hpm, hs⟩
    · rw [hf]
    · rw [hs, ← hv]
      have : L > m - (pre.length + 1) := by
        simp only [List.length_append, List.length_cons] at hn
        omega
      simp only [this, if_true]
  unfold extract_properties
  rw [hloop]

/-- Witness of C6: the buffer `05 21 00 0A 24 01` cut after four bytes. -/
theorem truncated_buffer_rejected_witness :
    (mqtt_extract_uint ⟨[0x05, 0x21, 0x00, 0x0A, 0x24, 0x01],
          [0x05, 0x21, 0x00, 0x0A, 0x24, (0x01 : Byte)].length % 2 ^ 32⟩
        = .ok (⟨[0x21, 0x00, 0x0A, 0x24, 0x01], 5⟩, 5) ∧
      (⟨[0x21, 0x00, 0x0A, 0x24, 0x01], 5⟩ : Cursor).payload.length = 5 ∧
      extract_properties (fun s => some s) [0x05, 0x21, 0x00, 0x0A, 0x24, 0x01]
        = .ok [("receive_maximum", [.long 10]), ("max_qos", [.long 1])] ∧
      4 < [0x05, 0x21, 0x00, 0x0A, 0x24, (0x01 : Byte)].length) ∧
    (extract_properties (fun s => some s) ([0x05, 0x21, 0x00, 0x0A, 0x24, 0x01].take 4) = .fail ∧
      extract_properties (fun s => some s)
          ([0x05, 0x21, 0x00, 0x0A, 0x24, 0x01].take
            [0x05, 0x21, 0x00, 0x0A, 0x24, (0x01 : Byte)].length)
        = .ok [("receive_maximum", [.long 10]), ("max_qos", [.long 1])]) :=
  ⟨⟨rfl, rfl, rfl, by decide⟩,
    truncated_buffer_rejected (fun s => some s) [0x05, 0x21, 0x00, 0x0A, 0x24, 0x01]
      ⟨[0x21, 0x00, 0x0A, 0x24, 0x01], 5⟩ 5 [("receive_maximum", [.long 10]), ("max_qos", [.long 1])]
      rfl rfl rfl 4 (by decide)⟩

/-- C7: varint round trip.  For every `v < 2^28`, `mqtt_extract_uint` applied to
the MQTT variable-byte encoding of `v` (one to four bytes) followed by any
bytes `rest`, with a remaining size `n` that covers the encoding, succeeds,
yields exactly `v`, leaves the pointer right after the encoding and lowers the
remaining size by the length of the encoding. -/
theorem mqtt_extract_uint_round_trip (v : Nat) (hv : v < 2 ^ 28) (rest : List Byte) (n : Nat)
    (hn : (mqtt_varint v).length ≤ n) :
    1 ≤ (mqtt_varint v).length ∧ (mqtt_varint v).length ≤ 4 ∧
      mqtt_extract_uint ⟨mqtt_varint v ++ rest, n⟩
        = .ok (⟨(mqtt_varint v ++ rest).drop (mqtt_varint v).length,
            n - (mqtt_varint v).length⟩, v) ∧
      (mqtt_varint v ++ rest).drop (mqtt_varint v).length = rest := by
  refine ⟨(mqtt_varint_length v).1, (mqtt_varint_length v).2, ?_, List.drop_left _ _⟩
  rw [List.drop_left]
  exact mqtt_extract_uint_encode v hv rest n hn

/-- Witness of C7 at `v = 300` (encoding `AC 02`) followed by the byte `07`. -/
theorem mqtt_extract_uint_round_trip_witness :
    (300 < 2 ^ 28 ∧ (mqtt_varint 300).length ≤ 3) ∧
      (1 ≤ (mqtt_varint 300).length ∧ (mqtt_varint 300).length ≤ 4 ∧
        mqtt_extract_uint ⟨mqtt_varint 300 ++ [0x07], 3⟩
          = .ok (⟨(mqtt_varint 300 ++ [0x07]).drop (mqtt_varint 300).length,
              3 - (mqtt_varint 300).length⟩, 300) ∧
        (mqtt_varint 300 ++ [0x07]).drop (mqtt_varint 300).length = [0x07]) :=
  ⟨by decide, mqtt_extract_uint_round_trip 300 (by decide) [0x07] 3 (by decide)⟩

/-- C8: for every cursor whose remaining size `n` does not exceed the bytes
present, `mqtt_extract_uint` fails if and only if `n = 0` or each of the first
`min 4 n` bytes has its top bit set; in particular it fails on any input that
starts with four continuation bytes, and on a continuation run that reaches
the end of the supplied length. -/
theorem mqtt_extract_uint_fail_iff (c : Cursor) (h : c.payload_size ≤ c.payload.length) :
    (mqtt_extract_uint c = .fail ↔
      (c.payload_size = 0 ∨
        ∀ x ∈ c.payload.take (min 4 c.payload_size), has_continuation_bit x)) ∧
    ((∀ x ∈ c.payload.take 4, has_continuation_bit x) → 4 ≤ c.payload_size →
      mqtt_extract_uint c = .fail) ∧
    ((∀ x ∈ c.payload.take c.payload_size, has_continuation_bit x) →
      mqtt_extract_uint c = .fail) := by
  have key := mqtt_extract_uint_fail_iff_aux c h
  refine ⟨key, ?_, ?_⟩
  · intro h4 hn
    apply key.mpr
    right
    rwa [Nat.min_eq_left hn]
  · intro hall
    apply key.mpr
    right
    intro x hx
    apply hall
    have e : (c.payload.take c.payload_size).take (min 4 c.payload_size)
        = c.payload.take (min 4 c.payload_size) := by
      rw [List.take_take]; congr 1; omega
    rw [← e] at hx
    exact List.mem_of_mem_take hx

/-- Witness of C8: four continuation bytes and a fifth byte, remaining size 5. -/
theorem mqtt_extract_uint_fail_iff_witness :
    ((⟨[0x80, 0x80, 0x80, 0x80, 0x01], 5⟩ : Cursor).payload_size
        ≤ (⟨[0x80, 0x80, 0x80, 0x80, 0x01], 5⟩ : Cursor).payload.length) ∧
    mqtt_extract_uint ⟨[0x80, 0x80, 0x80, 0x80, 0x01], 5⟩ = .fail :=
  ⟨by decide,
    ((mqtt_extract_uint_fail_iff ⟨[0x80, 0x80, 0x80, 0x80, 0x01], 5⟩ (by decide)).2.1)
      (by simp [has_continuation_bit]; decide) (by decide)⟩

/-- C9: a binary property is consumed and not surfaced.  For an identifier
`0x09` (or `0x16`), every blob of at most 65535 bytes and every `rest`: one
pass of the loop body over `id hi(len) lo(len) blob ++ rest` leaves the
dictionary unchanged, the pointer at `rest` and the counter lowered by
`1 + 2 + len`; and decoding the region `id hi lo blob ++ rest` (declared length
`3 + len + |rest|`) gives the same result as decoding `rest` alone (declared
length `|rest|`). -/
theorem binary_property_skipped (F : List Byte → Option PyStr) (t : Byte)
    (blob rest : List Byte) (ht : t = 0x09 ∨ t = 0x16) (hb : blob.length ≤ 65535)
    (hL : 1 + (2 + blob.length) + rest.length < 2 ^ 28) :
    (∀ dict size, 1 + (2 + blob.length) ≤ size →
      parse_property F dict (t :: (length_prefixed blob ++ rest)) size
        = .ok ⟨dict, rest, size - (1 + (2 + blob.length))⟩) ∧
    extract_properties F
        (mqtt_varint (1 + (2 + blob.length) + rest.length)
          ++ (t :: (length_prefixed blob ++ rest)))
      = extract_properties F (mqtt_varint rest.length ++ rest) := by
  refine ⟨fun dict size hs => parse_property_binary F dict t blob rest size ht hb hs, ?_⟩
  have hlen : (t :: (length_prefixed blob ++ rest)).length
      = 1 + (2 + blob.length) + rest.length := by
    simp [length_prefixed]; omega
  have hloop : extract_properties_loop F
      (mqtt_varint (1 + (2 + blob.length) + rest.length)
        ++ (t :: (length_prefixed blob ++ rest)))
      = extract_properties_loop F (mqtt_varint rest.length ++ rest) := by
    rw [← hlen, extract_properties_loop_encoded F _ (by rw [hlen]; exact hL),
      extract_properties_loop_encoded F rest (by omega), hlen]
    have e1 : 1 + (2 + blob.length) + rest.length = (rest.length + (2 + blob.length)) + 1 := by
      omega
    rw [e1, parse_properties_step F _ _ _
      (show 1 < rest.length + (2 + blob.length) + 1 by omega)
      (parse_property_binary F [] t blob rest _ ht hb
        (show 1 + (2 + blob.length) ≤ rest.length + (2 + blob.length) + 1 by omega))]
    have e2 : rest.length + (2 + blob.length) + 1 - (1 + (2 + blob.length)) = rest.length := by
      omega
    rw [e2]
    exact parse_properties_fuel_ge F rest.length ⟨[], rest, rest.length⟩
      (show rest.length ≤ 2 * rest.length + 1 by omega) (2 + blob.length)
  unfold extract_properties
  rw [hloop]

/-- Witness of C9: Correlation Data `AA BB` followed by Maximum QoS 1. -/
theorem binary_property_skipped_witness :
    (((0x09 : Byte) = 0x09 ∨ (0x09 : Byte) = 0x16) ∧ [(0xAA : Byte), 0xBB].length ≤ 65535 ∧
      1 + (2 + [(0xAA : Byte), 0xBB].length) + [(0x24 : Byte), 0x01].length < 2 ^ 28) ∧
    ((∀ dict size, 1 + (2 + [(0xAA : Byte), 0xBB].length) ≤ size →
      parse_property (fun s => some s) dict
          (0x09 :: (length_prefixed [0xAA, 0xBB] ++ [0x24, 0x01])) size
        = .ok ⟨dict, [0x24, 0x01], size - (1 + (2 + [(0xAA : Byte), 0xBB].length))⟩) ∧
    extract_properties (fun s => some s)
        (mqtt_varint (1 + (2 + [(0xAA : Byte), 0xBB].length) + [(0x24 : Byte), 0x01].length)
          ++ (0x09 :: (length_prefixed [0xAA, 0xBB] ++ [0x24, 0x01])))
      = extract_properties (fun s => some s)
          (mqtt_varint [(0x24 : Byte), 0x01].length ++ [0x24, 0x01])) :=
  ⟨⟨Or.inl rfl, by simp, by simp⟩,
    binary_property_skipped (fun s => some s) 0x09 [0xAA, 0xBB] [0x24, 0x01] (Or.inl rfl)
      (by simp) (by simp)⟩

/-- C10 (counterexample): a buffer of `2^32` zero bytes starts with `0x00`, yet
its size narrows to `payload_size = 0` and the decode fails. -/
theorem empty_properties_huge_buffer_rejected :
    (List.replicate (2 ^ 32) (0x00 : Byte)).head? = some 0x00 ∧
      extract_properties (fun s => some s) (List.replicate (2 ^ 32) (0x00 : Byte)) = .fail := by
  constructor
  · exact head?_replicate_pos _ _ (Nat.pow_pos (by omega))
  · apply extract_properties_size_zero
    rw [List.length_replicate]
    exact Nat.mod_self _

/-- C10 (amended): for every buffer of fewer than `2^32` bytes whose first byte
is `0x00`, in particular the one-byte buffer `00`, `extract_properties`
succeeds and returns the empty table. -/
theorem empty_properties (F : List Byte → Option PyStr) (rest : List Byte)
    (h : ((0x00 : Byte) :: rest).length < 2 ^ 32) :
    extract_properties F (0x00 :: rest) = .ok [] ∧ extract_properties F [0x00] = .ok [] := by
  refine ⟨?_, rfl⟩
  have hz : ¬ has_continuation_bit (0x00 : Byte) := by decide
  have hu := mqtt_extract_uint_stop [] 0x00 rest (((0x00 : Byte) :: rest).length % 2 ^ 32)
    (by simp) hz (by simp) (by rw [Nat.mod_eq_of_lt h]; simp)
  have hv : varint_accumulate ([] ++ [(0x00 : Byte)]) 0 0 % 2 ^ 32 = 0 := by decide
  rw [hv, List.nil_append] at hu
  unfold extract_properties extract_properties_loop
  rw [hu]
  simp [parse_properties]

/-- Witness of C10 (amended): `00` followed by two bytes beyond the properties. -/
theorem empty_properties_witness :
    ((0x00 : Byte) :: [0xDE, 0xAD]).length < 2 ^ 32 ∧
      (extract_properties (fun s => some s) (0x00 :: [0xDE, 0xAD]) = .ok [] ∧
        extract_properties (fun s => some s) [0x00] = .ok []) :=
  ⟨by simp, empty_properties (fun s => some s) [0xDE, 0xAD] (by simp)⟩

/-- C11 (the code at the failing inputs): `validate_utf8` returns the failure
value `-1` for legal strings (printable ASCII `ABC`, the two-byte form of
U+00E9, the empty string) exactly as it does for illegal ones (a control
character, a stray continuation byte), so its result does not report
legality. -/
theorem validate_utf8_legal_text_fails :
    validate_utf8 [0x41, 0x42, 0x43, 0x00] 3 = .ok (-1) ∧
    validate_utf8 [0xC3, 0xA9, 0x00] 2 = .ok (-1) ∧
    validate_utf8 [0x00] 0 = .ok (-1) ∧
    validate_utf8 [0x01, 0x00] 1 = .ok (-1) ∧
    validate_utf8 [0x80, 0x00] 1 = .ok (-1) :=
  ⟨rfl, rfl, rfl, rfl, rfl⟩

/-- C12: whenever `mqtt_extract_string` succeeds on a cursor whose first two
bytes `b0 b1` encode the big-endian length `L = 256*b0 + b1`, the pointer has
advanced by exactly `2 + L`, the remaining size has gone down by exactly
`2 + L`, the reported string length is `L`, and the returned text buffer is the
`L` bytes that followed the length prefix (then the terminating zero). -/
theorem mqtt_extract_string_advances (c c' : Cursor) (max_length : Int) (text : List Byte)
    (str_length : Nat) (b0 b1 : Byte) (rest : List Byte)
    (hc : c.payload = b0 :: b1 :: rest)
    (h : mqtt_extract_string c max_length = .ok (c', text, str_length)) :
    str_length = 256 * b0.val + b1.val ∧
      c'.payload = c.payload.drop (2 + str_length) ∧
      c'.payload.length + (2 + str_length) = c.payload.length ∧
      c'.payload_size + (2 + str_length) = c.payload_size ∧
      text = rest.take str_length ++ [0] ∧
      (rest.take str_length).length = str_length := by
  obtain ⟨h1, h2, h3⟩ := mqtt_extract_string_ok_inv c c' max_length text str_length h
  have hlen : str_length ≤ rest.length := by
    rw [hc] at h2; simp only [List.length_cons] at h2; omega
  unfold mqtt_extract_string at h
  rw [hc] at h
  simp only at h
  split at h
  · cases h
  · split at h
    · cases h
    · split at h
      · cases h
      · split at h
        · split at h
          · cases h
          · injection h with h
            injection h with _ h
            injection h with ht hs
            have hL : str_length = 256 * b0.val + b1.val := by omega
            refine ⟨hL, ?_, ?_, ?_, ?_, ?_⟩
            · rw [h3, Nat.add_comm]
            · rw [h3]; simp only [List.length_drop]; omega
            · rw [h3]; simp only []; omega
            · rw [← ht, ← hs]
            · rw [List.length_take]; omega
        · cases h
        · cases h
        · cases h

/-- Witness of C12: the string `"hi"` followed by one more byte. -/
theorem mqtt_extract_string_advances_witness :
    ((⟨[0x00, 0x02, 0x68, 0x69, 0x07], 5⟩ : Cursor).payload = 0x00 :: 0x02 :: [0x68, 0x69, 0x07] ∧
      mqtt_extract_string ⟨[0x00, 0x02, 0x68, 0x69, 0x07], 5⟩ 65535
        = .ok (⟨[0x07], 1⟩, [0x68, 0x69, 0x00], 2)) ∧
    (2 = 256 * (0x00 : Byte).val + (0x02 : Byte).val ∧
      (⟨[0x07], 1⟩ : Cursor).payload
        = (⟨[0x00, 0x02, 0x68, 0x69, 0x07], 5⟩ : Cursor).payload.drop (2 + 2) ∧
      (⟨[0x07], 1⟩ : Cursor).payload.length + (2 + 2)
        = (⟨[0x00, 0x02, 0x68, 0x69, 0x07], 5⟩ : Cursor).payload.length ∧
      (⟨[0x07], 1⟩ : Cursor).payload_size + (2 + 2)
        = (⟨[0x00, 0x02, 0x68, 0x69, 0x07], 5⟩ : Cursor).payload_size ∧
      [0x68, 0x69, 0x00] = [(0x68 : Byte), 0x69, 0x07].take 2 ++ [0] ∧
      ([(0x68 : Byte), 0x69, 0x07].take 2).length = 2) :=
  ⟨⟨rfl, rfl⟩,
    mqtt_extract_string_advances ⟨[0x00, 0x02, 0x68, 0x69, 0x07], 5⟩ ⟨[0x07], 1⟩ 65535
      [0x68, 0x69, 0x00] 2 0x00 0x02 [0x68, 0x69, 0x07] rfl rfl⟩

theorem extract_properties_loop_fail (F : List Byte → Option PyStr) (buf : List Byte)
    (h : extract_properties_loop F buf = .fail) : extract_properties F buf = .fail := by
  unfold extract_properties
  rw [h]

/-- C13: for every buffer whose length prefix decodes to a properties length
`L` greater than the number of bytes that follow the prefix,
`extract_properties` fails. -/
theorem declared_length_beyond_buffer_rejected (F : List Byte → Option PyStr)
    (buf : List Byte) (c : Cursor) (L : Nat)
    (hp : mqtt_extract_uint ⟨buf, buf.length % 2 ^ 32⟩ = .ok (c, L))
    (hL : c.payload.length < L) :
    extract_properties F buf = .fail := by
  apply extract_properties_loop_fail
  obtain ⟨k, _, _, hk, hkl, hc⟩ := mqtt_extract_uint_consumes _ _ _ hp
  simp only at hk hkl hc
  have hm : buf.length % 2 ^ 32 ≤ buf.length := Nat.mod_le _ _
  have hsz : c.payload_size ≤ c.payload.length := by
    rw [hc]; simp only [List.length_drop]; omega
  unfold extract_properties_loop
  rw [hp]
  have : L > c.payload_size := by omega
  simp only [this, if_true]

/-- Witness of C13: `03 21 00` declares three bytes and holds two. -/
theorem declared_length_beyond_buffer_rejected_witness :
    (mqtt_extract_uint ⟨[0x03, 0x21, 0x00], [(0x03 : Byte), 0x21, 0x00].length % 2 ^ 32⟩
        = .ok (⟨[0x21, 0x00], 2⟩, 3) ∧
      (⟨[0x21, 0x00], 2⟩ : Cursor).payload.length < 3) ∧
    extract_properties (fun s => some s) [0x03, 0x21, 0x00] = .fail :=
  ⟨⟨rfl, by decide⟩,
    declared_length_beyond_buffer_rejected (fun s => some s) [0x03, 0x21, 0x00]
      ⟨[0x21, 0x00], 2⟩ 3 rfl (by decide)⟩

theorem low7_le (b : Byte) : b.val &&& 0x7F ≤ 127 := by
  rw [land_127]; omega

theorem low7_sum_cons (b : Byte) (l : List Byte) (i : Nat) :
    (∑ j ∈ Finset.range (b :: l).length, (((b :: l)[j]?.getD 0).val &&& 0x7F) * 128 ^ (i + j))
      = (b.val &&& 0x7F) * 128 ^ i
        + ∑ j ∈ Finset.range l.length, ((l[j]?.getD 0).val &&& 0x7F) * 128 ^ (i + 1 + j) := by
  rw [List.length_cons, Finset.sum_range_succ', Nat.add_comm]
  congr 1
  · simp
  · apply Finset.sum_congr rfl
    intro j _
    rw [List.getElem?_cons_succ]
    congr 2
    omega

theorem low7_sum_bound (l : List Byte) :
    ∀ i, (∑ j ∈ Finset.range l.length, ((l[j]?.getD 0).val &&& 0x7F) * 128 ^ (i + j)) + 128 ^ i
      ≤ 128 ^ (i + l.length) := by
  induction l with
  | nil => intro i; simp
  | cons b l ih =>
    intro i
    rw [low7_sum_cons]
    have h1 := ih (i + 1)
    have h2 : (b.val &&& 0x7F) * 128 ^ i ≤ 127 * 128 ^ i :=
      Nat.mul_le_mul_right _ (low7_le b)
    have h3 : 128 ^ (i + 1) = 128 * 128 ^ i := by rw [pow_succ]; omega
    have h4 : i + (b :: l).length = i + 1 + l.length := by simp only [List.length_cons]; omega
    rw [h4]
    omega

theorem varint_accumulate_sum (l : List Byte) :
    ∀ i value,
      value + (∑ j ∈ Finset.range l.length, ((l[j]?.getD 0).val &&& 0x7F) * 128 ^ (i + j)) < 2 ^ 64 →
      varint_accumulate l value (7 * i)
        = value + ∑ j ∈ Finset.range l.length, ((l[j]?.getD 0).val &&& 0x7F) * 128 ^ (i + j) := by
  induction l with
  | nil => intro i value _; simp [varint_accumulate]
  | cons b l ih =>
    intro i value h
    rw [low7_sum_cons] at h ⊢
    have hs : (b.val &&& 0x7F) <<< (7 * i) = (b.val &&& 0x7F) * 128 ^ i := by
      rw [Nat.shiftLeft_eq, pow_mul]; norm_num
    simp only [varint_accumulate]
    rw [hs, Nat.mod_eq_of_lt (by omega), Nat.mod_eq_of_lt (by omega),
      show 7 * i + 7 = 7 * (i + 1) by omega, ih (i + 1) _ (by omega)]
    omega


theorem varint_accumulate_value (pre : List Byte) (b : Byte) (rest : List Byte)
    (h : pre.length ≤ 8) :
    varint_accumulate (pre ++ [b]) 0 0
      = ∑ i ∈ Finset.range (pre.length + 1),
          (((pre ++ b :: rest)[i]?.getD 0).val &&& 0x7F) * 128 ^ i := by
  have hb := low7_sum_bound (pre ++ [b]) 0
  have hlen : (pre ++ [b]).length = pre.length + 1 := by simp
  have hp : (128 : Nat) ^ (0 + (pre ++ [b]).length) ≤ 128 ^ 9 :=
    Nat.pow_le_pow_right (by omega) (by rw [hlen]; omega)
  have h9 : (128 : Nat) ^ 9 < 2 ^ 64 := by norm_num
  have hs := varint_accumulate_sum (pre ++ [b]) 0 0 (by simp only [pow_zero] at hb; omega)
  rw [Nat.mul_zero, Nat.zero_add, hlen] at hs
  rw [hs]
  apply Finset.sum_congr rfl
  intro i hi
  have hi' : i < pre.length + 1 := Finset.mem_range.mp hi
  rw [Nat.zero_add]
  congr 3
  rcases Nat.lt_or_ge i pre.length with hlt | hge
  · rw [List.getElem?_append_left hlt, List.getElem?_append_left hlt]
  · have : i = pre.length := by omega
    subst this
    rw [List.getElem?_append_right (Nat.le_refl _), List.getElem?_append_right (Nat.le_refl _)]
    simp

/-- C15: `fieldset_unpack_uint` reports the bytes it read, or zero on error.  For
`field_size ≥ 1`: if the first byte with a clear top bit is at index
`k < field_size` (the slice is `pre ++ b :: rest` with `k = |pre|`), then
`bytes_read = k + 1` and, for `k ≤ 8`, the returned value is the sum over
`i ≤ k` of `(byte_i & 0x7F) * 128^i`; if none of the first `field_size` bytes of
a slice `l` has a clear top bit, then `bytes_read = 0` and the value is 0. -/
theorem fieldset_unpack_uint_bytes_read (pre : List Byte) (b : Byte) (rest l : List Byte)
    (field_size : Nat) (hfs : 1 ≤ field_size)
    (hc : ∀ x ∈ pre, has_continuation_bit x) (hb : ¬ has_continuation_bit b)
    (hk : pre.length < field_size)
    (hl : field_size ≤ l.length) (hall : ∀ x ∈ l.take field_size, has_continuation_bit x) :
    (∃ v, fieldset_unpack_uint (pre ++ b :: rest) field_size = .ok (v, pre.length + 1) ∧
      (pre.length ≤ 8 →
        v = ∑ i ∈ Finset.range (pre.length + 1),
              (((pre ++ b :: rest)[i]?.getD 0).val &&& 0x7F) * 128 ^ i)) ∧
    fieldset_unpack_uint l field_size = .ok (0, 0) := by
  constructor
  · refine ⟨varint_accumulate (pre ++ [b]) 0 0, ?_, varint_accumulate_value pre b rest⟩
    unfold fieldset_unpack_uint
    rw [unpack_loop_stop field_size pre b rest 0 0 0 hc hb (fun _ => by omega)]
    simp
  · unfold fieldset_unpack_uint
    exact unpack_loop_all_cont field_size l 0 0 0 (by omega) (by omega) (by simpa using hall)

/-- Witness of C15: `AC 02` (value 300, two bytes read) and the run `80 80`. -/
theorem fieldset_unpack_uint_bytes_read_witness :
    (1 ≤ 2 ∧ (∀ x ∈ [(0xAC : Byte)], has_continuation_bit x) ∧
      ¬ has_continuation_bit (0x02 : Byte) ∧ [(0xAC : Byte)].length < 2 ∧
      2 ≤ [(0x80 : Byte), 0x80].length ∧
      (∀ x ∈ [(0x80 : Byte), 0x80].take 2, has_continuation_bit x)) ∧
    ((∃ v, fieldset_unpack_uint ([0xAC] ++ 0x02 :: [0x07]) 2 = .ok (v, [(0xAC : Byte)].length + 1) ∧
      ([(0xAC : Byte)].length ≤ 8 →
        v = ∑ i ∈ Finset.range ([(0xAC : Byte)].length + 1),
              ((([0xAC] ++ 0x02 :: [0x07])[i]?.getD (0 : Byte)).val &&& 0x7F) * 128 ^ i)) ∧
    fieldset_unpack_uint [0x80, 0x80] 2 = .ok (0, 0)) :=
  ⟨⟨by decide, by simp [has_continuation_bit]; decide, by simp [has_continuation_bit]; decide,
      by simp, by simp, by simp [has_continuation_bit]; decide⟩,
    fieldset_unpack_uint_bytes_read [0xAC] 0x02 [0x07] [0x80, 0x80] 2 (by decide)
      (by simp [has_continuation_bit]; decide) (by simp [has_continuation_bit]; decide)
      (by simp) (by simp) (by simp [has_continuation_bit]; decide)⟩

theorem fieldset_unpack_uint_example :
    fieldset_unpack_uint [0xAC, 0x02, 0x07] 2 = .ok (300, 2) := rfl

theorem parse_property_four_byte_short (F : List Byte → Option PyStr) (dict : PyDict)
    (t : Byte) (rest : List Byte) (size : Nat)
    (ht : t = 0x02 ∨ t = 0x11 ∨ t = 0x18 ∨ t = 0x27) (hs : size - 1 < 4) :
    parse_property F dict (t :: rest) size = .fail := by
  rcases ht with rfl | rfl | rfl | rfl
  · have e : ((0x02 : Byte) : Nat) = 2 := rfl
    simp only [parse_property, e, hs, if_true]
  · have e : ((0x11 : Byte) : Nat) = 17 := rfl
    simp only [parse_property, e, hs, if_true]
  · have e : ((0x18 : Byte) : Nat) = 24 := rfl
    simp only [parse_property, e, hs, if_true]
  · have e : ((0x27 : Byte) : Nat) = 39 := rfl
    simp only [parse_property, e, hs, if_true]

/-- C18: for every identifier in `{0x02, 0x11, 0x18, 0x27}` and bytes
`b3 b2 b1 b0`, the buffer `05 id b3 b2 b1 b0` decodes to the table with the
single entry `name(id): [b3*2^24 + b2*2^16 + b1*2^8 + b0]`, a value below
`2^32`; and whenever the loop stands at such an identifier with fewer than 4
bytes left in the counter after it, the decode fails whatever bytes the buffer
holds (so `04 id b3 b2 b1 b0`, which holds all four value bytes, fails). -/
theorem four_byte_integer_property (F : List Byte → Option PyStr) (id : Byte)
    (hid : id = 0x02 ∨ id = 0x11 ∨ id = 0x18 ∨ id = 0x27) (b3 b2 b1 b0 : Byte) :
    extract_properties F [0x05, id, b3, b2, b1, b0]
        = .ok [(mqtt_property id.val,
            [.long (b3.val * 2 ^ 24 + b2.val * 2 ^ 16 + b1.val * 2 ^ 8 + b0.val)])] ∧
      b3.val * 2 ^ 24 + b2.val * 2 ^ 16 + b1.val * 2 ^ 8 + b0.val < 2 ^ 32 ∧
      (∀ fuel dict rest size, 1 < size → size - 1 < 4 →
        parse_properties F (fuel + 1) ⟨dict, id :: rest, size⟩ = .fail) ∧
      extract_properties F [0x04, id, b3, b2, b1, b0] = .fail := by
  refine ⟨?_, by omega, ?_, ?_⟩
  · rcases hid with rfl | rfl | rfl | rfl <;> rfl
  · intro fuel dict rest size h1 h4
    exact parse_properties_step_fail F fuel _ h1
      (parse_property_four_byte_short F dict id rest size hid h4)
  · rcases hid with rfl | rfl | rfl | rfl <;> rfl

/-- Witness of C18: Session Expiry Interval `00 00 0E 10` (3600). -/
theorem four_byte_integer_property_witness :
    ((0x11 : Byte) = 0x02 ∨ (0x11 : Byte) = 0x11 ∨ (0x11 : Byte) = 0x18 ∨ (0x11 : Byte) = 0x27) ∧
    (extract_properties (fun s => some s) [0x05, 0x11, 0x00, 0x00, 0x0E, 0x10]
        = .ok [(mqtt_property (0x11 : Byte).val,
            [.long ((0x00 : Byte).val * 2 ^ 24 + (0x00 : Byte).val * 2 ^ 16
              + (0x0E : Byte).val * 2 ^ 8 + (0x10 : Byte).val)])] ∧
      (0x00 : Byte).val * 2 ^ 24 + (0x00 : Byte).val * 2 ^ 16
        + (0x0E : Byte).val * 2 ^ 8 + (0x10 : Byte).val < 2 ^ 32 ∧
      (∀ fuel dict rest size, 1 < size → size - 1 < 4 →
        parse_properties (fun s => some s) (fuel + 1) ⟨dict, 0x11 :: rest, size⟩ = .fail) ∧
      extract_properties (fun s => some s) [0x04, 0x11, 0x00, 0x00, 0x0E, 0x10] = .fail) :=
  ⟨Or.inr (Or.inl rfl),
    four_byte_integer_property (fun s => some s) 0x11 (Or.inr (Or.inl rfl)) 0x00 0x00 0x0E 0x10⟩

theorem four_byte_integer_example :
    extract_properties (fun s => some s) [0x05, 0x11, 0x00, 0x00, 0x0E, 0x10]
      = .ok [("session_expiry_interval", [.long 3600])] := rfl

theorem unpack_loop_ok (fs : Nat) (l : List Byte) :
    ∀ idx value bits, unpack_loop fs l idx value bits = .oob ∨
      ∃ r, unpack_loop fs l idx value bits = .ok r := by
  induction l with
  | nil => intro idx value bits; left; rfl
  | cons a l ih =>
    intro idx value bits
    simp only [unpack_loop]
    split
    · split
      · right; exact ⟨_, rfl⟩
      · exact ih _ _ _
    · right; exact ⟨_, rfl⟩

theorem mqtt_extract_uint_fail_or_ok (c : Cursor) (h : c.payload_size ≤ c.payload.length) :
    mqtt_extract_uint c = .fail ∨ ∃ r, mqtt_extract_uint c = .ok r := by
  unfold mqtt_extract_uint fieldset_unpack_uint
  split
  · left; rfl
  · obtain ⟨v, r, hu⟩ := unpack_loop_in_bounds c.payload_size c.payload 0 0 0 (by omega) (by omega)
    rw [hu]
    simp only
    split
    · left; rfl
    · right; exact ⟨_, rfl⟩

theorem mqtt_extract_uint_ne_nofuel (c : Cursor) : mqtt_extract_uint c ≠ .nofuel := by
  unfold mqtt_extract_uint fieldset_unpack_uint
  split
  · simp
  · rcases unpack_loop_ok c.payload_size c.payload 0 0 0 with h | ⟨⟨v, r⟩, h⟩
    · rw [h]; simp
    · rw [h]; simp only; split <;> simp

theorem cons_cons_of_length (p : List Byte) (h : 2 ≤ p.length) :
    ∃ b0 b1 tl, p = b0 :: b1 :: tl := by
  match p, h with
  | b0 :: b1 :: tl, _ => exact ⟨b0, b1, tl, rfl⟩

theorem mqtt_extract_string_fail_or_ok (c : Cursor) (m : Int)
    (h : c.payload_size ≤ c.payload.length) :
    mqtt_extract_string c m = .fail ∨ ∃ r, mqtt_extract_string c m = .ok r := by
  by_cases h2 : c.payload_size < 2
  · left; simp [mqtt_extract_string, h2]
  · obtain ⟨b0, b1, rest, hp⟩ := cons_cons_of_length c.payload (by omega)
    by_cases hc : c.payload_size < 2 + (b0.val * 256 + b1.val) ∨
        ((b0.val * 256 + b1.val : Nat) : Int) > m
    · left; simp only [mqtt_extract_string, h2, if_false, hp, hc, if_true]
    · right
      have := mqtt_extract_string_cons b0 b1 rest c.payload_size m (by omega) (by omega)
        (by rw [hp] at h; simp only [List.length_cons] at h; omega)
      obtain ⟨l, n⟩ := c
      simp only at hp
      subst hp
      exact ⟨_, this⟩

theorem mqtt_extract_string_ne_nofuel (c : Cursor) (m : Int) :
    mqtt_extract_string c m ≠ .nofuel := by
  unfold mqtt_extract_string
  split
  · simp
  · split
    · rename_i b0 b1 rest _
      simp only
      split
      · simp
      · split
        · simp
        · rename_i hr
          have hlen : (rest.take (b0.val * 256 + b1.val)).length = b0.val * 256 + b1.val := by
            rw [List.length_take]; omega
          have hv := validate_utf8_total (rest.take (b0.val * 256 + b1.val)) (by rw [hlen]; omega)
          rw [hlen] at hv
          rw [hv]
          simp
    · simp

theorem write_property_string_single (F : List Byte → Option PyStr) (dict : PyDict) (t : Nat)
    (text : List Byte) (ht : t ≠ 0x26) :
    write_property_string F dict t text none = .fail ∨
      ∃ d, write_property_string F dict t text none = .ok d := by
  simp only [write_property_string, mqtt_property_type_up, ht, if_false]
  split
  · left; rfl
  · right; exact ⟨_, rfl⟩

theorem write_property_string_pair (F : List Byte → Option PyStr) (dict : PyDict) (t : Nat)
    (text second : List Byte) :
    write_property_string F dict t text (some second) = .fail ∨
      ∃ d, write_property_string F dict t text (some second) = .ok d := by
  simp only [write_property_string]
  split
  · split
    · left; rfl
    · split
      · left; rfl
      · right; exact ⟨_, rfl⟩
  · split
    · left; rfl
    · right; exact ⟨_, rfl⟩

theorem parse_property_fail_or_ok (F : List Byte → Option PyStr) (dict : PyDict)
    (payload : List Byte) (size : Nat) (hsize : 1 < size) (hlen : size ≤ payload.length) :
    parse_property F dict payload size = .fail ∨
      ∃ s, parse_property F dict payload size = .ok s := by
  cases payload with
  | nil => simp at hlen; omega
  | cons t p =>
    simp only [List.length_cons] at hlen
    unfold parse_property
    simp only
    split
    -- 1 byte value
    iterate 8
      focus
        cases p with
        | nil => simp at hlen; omega
        | cons v q => right; exact ⟨_, rfl⟩
    -- 2 bytes value
    iterate 4
      focus
        split
        · left; rfl
        · obtain ⟨b0, b1, tl, rfl⟩ := cons_cons_of_length p (by omega)
          right; exact ⟨_, rfl⟩
    -- 4 bytes value
    iterate 4
      focus
        split
        · left; rfl
        · obtain ⟨b0, b1, tl, rfl⟩ := cons_cons_of_length p (by omega)
          obtain ⟨b2, b3, tl, rfl⟩ := cons_cons_of_length tl
            (by simp only [List.length_cons] at hlen; omega)
          right; exact ⟨_, rfl⟩
    -- variable byte integer
    · rcases mqtt_extract_uint_fail_or_ok ⟨p, size - 1⟩ (by simp only []; omega) with h | ⟨⟨c, v⟩, h⟩
      · rw [h]; left; rfl
      · rw [h]; right; exact ⟨_, rfl⟩
    -- utf-8 encoded string
    iterate 7
      focus
        rename_i heq
        rcases mqtt_extract_string_fail_or_ok ⟨p, size - 1⟩ 65535 (by simp only []; omega)
          with h | ⟨⟨c, text, n⟩, h⟩
        · rw [h]; left; rfl
        · rw [h]
          simp only
          rcases write_property_string_single F dict t.val text (by omega) with hw | ⟨d, hw⟩
          · rw [hw]; left; rfl
          · rw [hw]; right; exact ⟨_, rfl⟩
    -- utf-8 string pair
    · rcases mqtt_extract_string_fail_or_ok ⟨p, size - 1⟩ 65535 (by simp only []; omega)
        with h | ⟨⟨c, text, n⟩, h⟩
      · rw [h]; left; rfl
      · rw [h]
        simp only
        obtain ⟨h1, h2, hc⟩ := mqtt_extract_string_ok_inv _ _ _ _ _ h
        simp only at h1 h2 hc
        rcases mqtt_extract_string_fail_or_ok c 65535
          (by rw [hc]; simp only [List.length_drop]; omega) with h' | ⟨⟨c', text', n'⟩, h'⟩
        · rw [h']; left; rfl
        · rw [h']
          simp only
          rcases write_property_string_pair F dict t.val text text' with hw | ⟨d, hw⟩
          · rw [hw]; left; rfl
          · rw [hw]; right; exact ⟨_, rfl⟩
    -- binary data
    iterate 2
      focus
        split
        · left; rfl
        · obtain ⟨b0, b1, tl, rfl⟩ := cons_cons_of_length p (by omega)
          simp only
          split
          · left; rfl
          · right; exact ⟨_, rfl⟩
    -- unknown code
    · left; rfl

theorem parse_properties_fail_or_ok (F : List Byte → Option PyStr) :
    ∀ fuel s, s.properties_size ≤ s.payload.length → s.properties_size ≤ 2 * fuel + 1 →
      parse_properties F fuel s = .fail ∨ ∃ e, parse_properties F fuel s = .ok e := by
  intro fuel
  induction fuel with
  | zero =>
    intro s _ h
    right
    exact ⟨s, parse_properties_done F 0 s (by omega)⟩
  | succ fuel ih =>
    intro s hl hf
    by_cases hs : 1 < s.properties_size
    · rcases parse_property_fail_or_ok F s.dictObj s.payload s.properties_size hs hl
        with hp | ⟨s', hp⟩
      · left; exact parse_properties_step_fail F fuel s hs hp
      · rw [parse_properties_step F fuel s s' hs hp]
        obtain ⟨k, h2, h3, h4, h5⟩ := parse_property_consumes F _ _ _ _ hs hp
        exact ih s' (by rw [h4, h5, List.length_drop]; omega) (by omega)
    · right
      exact ⟨s, parse_properties_done F _ s (by omega)⟩

theorem cursor_after_length (buf : List Byte) (c : Cursor) (L : Nat)
    (hp : mqtt_extract_uint ⟨buf, buf.length % 2 ^ 32⟩ = .ok (c, L)) :
    c.payload_size ≤ c.payload.length ∧
      ∃ k, 1 ≤ k ∧ k ≤ 4 ∧ k ≤ buf.length ∧ c.payload = buf.drop k := by
  obtain ⟨k, h1, h4, hk, hkl, hc⟩ := mqtt_extract_uint_consumes _ _ _ hp
  simp only at hk hkl hc
  have hm : buf.length % 2 ^ 32 ≤ buf.length := Nat.mod_le _ _
  refine ⟨?_, k, h1, h4, hkl, ?_⟩
  · rw [hc]; simp only [List.length_drop]; omega
  · rw [hc]

theorem extract_properties_loop_fail_or_ok (F : List Byte → Option PyStr) (buf : List Byte) :
    extract_properties_loop F buf = .fail ∨ ∃ e, extract_properties_loop F buf = .ok e := by
  unfold extract_properties_loop
  rcases mqtt_extract_uint_fail_or_ok ⟨buf, buf.length % 2 ^ 32⟩ (Nat.mod_le _ _)
    with h | ⟨⟨c, L⟩, h⟩
  · rw [h]; left; rfl
  · rw [h]
    simp only
    obtain ⟨hc, _⟩ := cursor_after_length buf c L h
    split
    · left; rfl
    · exact parse_properties_fail_or_ok F L ⟨[], c.payload, L⟩ (by simp only []; omega)
        (by simp only []; omega)

theorem extract_properties_fail_or_ok (F : List Byte → Option PyStr) (buf : List Byte) :
    extract_properties F buf = .fail ∨ ∃ t, extract_properties F buf = .ok t := by
  unfold extract_properties
  rcases extract_properties_loop_fail_or_ok F buf with h | ⟨e, h⟩
  · rw [h]; left; rfl
  · rw [h]; right; exact ⟨_, rfl⟩

/-- C19: `extract_properties` terminates on every input buffer.  The iteration
bound of the loop is never exhausted; `floor(L/2)` iterations are already
enough for a declared properties length `L` that passed the framing check
(the loop gives the same result with that bound); and every pass of the loop body that does not return moves
the pointer forward by some `k ≥ 2` bytes and lowers the counter by the same
`k`. -/
theorem extract_properties_terminates (F : List Byte → Option PyStr) (buf : List Byte) :
    extract_properties F buf ≠ .nofuel ∧
      (∀ c L, mqtt_extract_uint ⟨buf, buf.length % 2 ^ 32⟩ = .ok (c, L) → L ≤ c.payload_size →
        parse_properties F (L / 2) ⟨[], c.payload, L⟩ = parse_properties F L ⟨[], c.payload, L⟩ ∧
        parse_properties F (L / 2) ⟨[], c.payload, L⟩ ≠ .nofuel) ∧
      (∀ dict payload size s, 1 < size → parse_property F dict payload size = .ok s →
        ∃ k, 2 ≤ k ∧ k ≤ size ∧ s.payload = payload.drop k ∧ s.properties_size = size - k) := by
  refine ⟨?_, ?_, ?_⟩
  · rcases extract_properties_fail_or_ok F buf with h | ⟨t, h⟩ <;> rw [h] <;> simp
  · intro c L hp hL
    have hfuel := parse_properties_fuel_ge F (L / 2) ⟨[], c.payload, L⟩
      (by simp only []; omega) (L - L / 2)
    rw [show L / 2 + (L - L / 2) = L by omega] at hfuel
    refine ⟨hfuel.symm, ?_⟩
    obtain ⟨hc, _⟩ := cursor_after_length buf c L hp
    rcases parse_properties_fail_or_ok F (L / 2) ⟨[], c.payload, L⟩ (by simp only []; omega)
      (by simp only []; omega) with h | ⟨e, h⟩ <;> rw [h] <;> simp
  · intro dict payload size s hs hp
    exact parse_property_consumes F dict payload size s hs hp

/-- Witness of C19 at the buffer `05 21 00 0A 24 01`: two iterations for a
declared length of 5. -/
theorem extract_properties_terminates_witness :
    (mqtt_extract_uint ⟨[0x05, 0x21, 0x00, 0x0A, 0x24, 0x01],
          [(0x05 : Byte), 0x21, 0x00, 0x0A, 0x24, 0x01].length % 2 ^ 32⟩
        = .ok (⟨[0x21, 0x00, 0x0A, 0x24, 0x01], 5⟩, 5) ∧
      5 ≤ (⟨[0x21, 0x00, 0x0A, 0x24, 0x01], 5⟩ : Cursor).payload_size) ∧
    extract_properties (fun s => some s) [0x05, 0x21, 0x00, 0x0A, 0x24, 0x01] ≠ .nofuel ∧
    (parse_properties (fun s => some s) (5 / 2)
        ⟨[], (⟨[0x21, 0x00, 0x0A, 0x24, 0x01], 5⟩ : Cursor).payload, 5⟩
      = parse_properties (fun s => some s) 5
          ⟨[], (⟨[0x21, 0x00, 0x0A, 0x24, 0x01], 5⟩ : Cursor).payload, 5⟩ ∧
      parse_properties (fun s => some s) (5 / 2)
        ⟨[], (⟨[0x21, 0x00, 0x0A, 0x24, 0x01], 5⟩ : Cursor).payload, 5⟩ ≠ .nofuel) :=
  ⟨⟨rfl, by decide⟩,
    (extract_properties_terminates (fun s => some s) [0x05, 0x21, 0x00, 0x0A, 0x24, 0x01]).1,
    (extract_properties_terminates (fun s => some s) [0x05, 0x21, 0x00, 0x0A, 0x24, 0x01]).2.1
      ⟨[0x21, 0x00, 0x0A, 0x24, 0x01], 5⟩ 5 rfl (by decide)⟩

/-- C20: with checked indexing, no byte is read outside the input buffer, for
every input buffer: `extract_properties` never takes the out-of-range branch;
nor does the loop body, the varint reader or the string extractor on any
cursor whose counter does not exceed the bytes left; nor does `validate_utf8`
on the zero-terminated copy of a string. -/
theorem extract_properties_reads_in_bounds (F : List Byte → Option PyStr) (buf : List Byte) :
    extract_properties F buf ≠ .oob ∧
      (∀ dict payload size, 1 < size → size ≤ payload.length →
        parse_property F dict payload size ≠ .oob) ∧
      (∀ c : Cursor, c.payload_size ≤ c.payload.length →
        mqtt_extract_uint c ≠ .oob ∧ ∀ m, mqtt_extract_string c m ≠ .oob) ∧
      (∀ text : List Byte, text.length ≤ 65536 →
        validate_utf8 (text ++ [0]) text.length ≠ .oob) := by
  refine ⟨?_, ?_, ?_, ?_⟩
  · rcases extract_properties_fail_or_ok F buf with h | ⟨t, h⟩ <;> rw [h] <;> simp
  · intro dict payload size hs hl
    rcases parse_property_fail_or_ok F dict payload size hs hl with h | ⟨s, h⟩ <;> rw [h] <;> simp
  · intro c hc
    constructor
    · rcases mqtt_extract_uint_fail_or_ok c hc with h | ⟨r, h⟩ <;> rw [h] <;> simp
    · intro m
      rcases mqtt_extract_string_fail_or_ok c m hc with h | ⟨r, h⟩ <;> rw [h] <;> simp
  · intro text ht
    rw [validate_utf8_total text ht]
    simp

/-- Witness of C20 at the buffer `05 21 00 0A 24 01` and at the cursor on the
string `"hi"`. -/
theorem extract_properties_reads_in_bounds_witness :
    ((1 < 5 ∧ 5 ≤ [(0x21 : Byte), 0x00, 0x0A, 0x24, 0x01].length) ∧
      (⟨[0x00, 0x02, 0x68, 0x69], 4⟩ : Cursor).payload_size
        ≤ (⟨[0x00, 0x02, 0x68, 0x69], 4⟩ : Cursor).payload.length ∧
      [(0x68 : Byte), 0x69].length ≤ 65536) ∧
    extract_properties (fun s => some s) [0x05, 0x21, 0x00, 0x0A, 0x24, 0x01] ≠ .oob ∧
    parse_property (fun s => some s) [] [0x21, 0x00, 0x0A, 0x24, 0x01] 5 ≠ .oob ∧
    (mqtt_extract_uint ⟨[0x00, 0x02, 0x68, 0x69], 4⟩ ≠ .oob ∧
      ∀ m, mqtt_extract_string ⟨[0x00, 0x02, 0x68, 0x69], 4⟩ m ≠ .oob) ∧
    validate_utf8 ([0x68, 0x69] ++ [0]) [(0x68 : Byte), 0x69].length ≠ .oob :=
  ⟨⟨⟨by decide, by decide⟩, by decide, by simp⟩,
    (extract_properties_reads_in_bounds (fun s => some s)
      [0x05, 0x21, 0x00, 0x0A, 0x24, 0x01]).1,
    (extract_properties_reads_in_bounds (fun s => some s)
      [0x05, 0x21, 0x00, 0x0A, 0x24, 0x01]).2.1 [] [0x21, 0x00, 0x0A, 0x24, 0x01] 5
      (by decide) (by decide),
    (extract_properties_reads_in_bounds (fun s => some s)
      [0x05, 0x21, 0x00, 0x0A, 0x24, 0x01]).2.2.1 ⟨[0x00, 0x02, 0x68, 0x69], 4⟩ (by decide),
    (extract_properties_reads_in_bounds (fun s => some s)
      [0x05, 0x21, 0x00, 0x0A, 0x24, 0x01]).2.2.2 [0x68, 0x69] (by simp)⟩
theorem parse_properties_end_state (F : List Byte → Option PyStr) :
    ∀ fuel s e, parse_properties F fuel s = .ok e → ∃ n, loop_state_at F n s = some e := by
  intro fuel
  induction fuel with
  | zero =>
    intro s e h
    rw [parse_properties] at h
    split at h
    · cases h
    · cases h; exact ⟨0, rfl⟩
  | succ fuel ih =>
    intro s e h
    rw [parse_properties] at h
    split at h
    · rename_i hs
      split at h
      · rename_i s' hp
        obtain ⟨n, hn⟩ := ih s' e h
        refine ⟨n + 1, ?_⟩
        simp only [loop_state_at, hs, if_true, hp, hn]
      · cases h
      · cases h
      · cases h
    · cases h; exact ⟨0, rfl⟩

theorem loop_state_at_offset (F : List Byte → Option PyStr) :
    ∀ n s0 s, s0.properties_size ≤ s0.payload.length → loop_state_at F n s0 = some s →
      ∃ j, s.payload = s0.payload.drop j ∧ j + s.properties_size = s0.properties_size := by
  intro n
  induction n with
  | zero =>
    intro s0 s _ h
    simp only [loop_state_at] at h
    cases h
    exact ⟨0, by simp, by omega⟩
  | succ n ih =>
    intro s0 s hl h
    simp only [loop_state_at] at h
    split at h
    · rename_i hs
      split at h
      · rename_i s1 hp
        obtain ⟨k, h2, h3, h4, h5⟩ := parse_property_consumes F _ _ _ _ hs hp
        obtain ⟨j, hj1, hj2⟩ := ih s1 s (by rw [h4, h5, List.length_drop]; omega) h
        refine ⟨k + j, ?_, by omega⟩
        rw [hj1, h4, List.drop_drop, Nat.add_comm]
      · cases h
    · cases h

/-- C14: cursor invariant of `extract_properties`.  After the length prefix
(which ends at offset `k0` and declares `L ≤ payload_size`), at every
evaluation of the loop guard the pointer is at an offset `pos` of the buffer
with `pos + properties_size = k0 + L ≤ buffer length`; hence the counter never
exceeds the bytes left.  Every pass of the loop body, and every successful
varint or string extraction, moves the pointer forward and the counter down by
the same number of bytes `k`, with `k` at most the counter (no underflow). -/
theorem cursor_invariant (F : List Byte → Option PyStr) (buf : List Byte) (c : Cursor)
    (L n : Nat) (s : LoopState)
    (hp : mqtt_extract_uint ⟨buf, buf.length % 2 ^ 32⟩ = .ok (c, L))
    (hL : L ≤ c.payload_size)
    (hs : loop_state_at F n ⟨[], c.payload, L⟩ = some s) :
    (∃ k0 pos, c.payload = buf.drop k0 ∧ s.payload = buf.drop pos ∧
      pos + s.properties_size = k0 + L ∧ k0 + L ≤ buf.length) ∧
    s.properties_size ≤ s.payload.length ∧
    (∀ s', 1 < s.properties_size →
      parse_property F s.dictObj s.payload s.properties_size = .ok s' →
      ∃ k, 2 ≤ k ∧ k ≤ s.properties_size ∧ s'.payload = s.payload.drop k ∧
        s'.properties_size = s.properties_size - k) ∧
    (∀ cur cur' : Cursor,
      ((∀ v, mqtt_extract_uint cur = .ok (cur', v) →
          ∃ k, 1 ≤ k ∧ k ≤ cur.payload_size ∧ cur'.payload = cur.payload.drop k ∧
            cur'.payload_size = cur.payload_size - k) ∧
        (∀ m text len, mqtt_extract_string cur m = .ok (cur', text, len) →
          len + 2 ≤ cur.payload_size ∧ cur'.payload = cur.payload.drop (len + 2) ∧
            cur'.payload_size = cur.payload_size - (len + 2)))) := by
  obtain ⟨hc, k0, _, _, hk0, hcp⟩ := cursor_after_length buf c L hp
  obtain ⟨j, hj1, hj2⟩ := loop_state_at_offset F n ⟨[], c.payload, L⟩ s
    (by simp only []; omega) hs
  simp only at hj1 hj2
  have hlen : c.payload.length = buf.length - k0 := by rw [hcp, List.length_drop]
  refine ⟨⟨k0, k0 + j, hcp, ?_, by omega, by omega⟩, ?_, ?_, ?_⟩
  · rw [hj1, hcp, List.drop_drop, Nat.add_comm]
  · rw [hj1, List.length_drop]; omega
  · intro s' h1 hpp
    exact parse_property_consumes F _ _ _ _ h1 hpp
  · intro cur cur'
    constructor
    · intro v hu
      obtain ⟨k, h1, _, h3, _, h5⟩ := mqtt_extract_uint_consumes _ _ _ hu
      exact ⟨k, h1, h3, by rw [h5], by rw [h5]⟩
    · intro m text len hstr
      obtain ⟨h1, _, h3⟩ := mqtt_extract_string_ok_inv _ _ _ _ _ hstr
      exact ⟨h1, by rw [h3], by rw [h3]⟩

/-- Witness of C14: the buffer `05 21 00 0A 24 01` after one pass of the loop. -/
theorem cursor_invariant_witness :
    (mqtt_extract_uint ⟨[0x05, 0x21, 0x00, 0x0A, 0x24, 0x01],
          [(0x05 : Byte), 0x21, 0x00, 0x0A, 0x24, 0x01].length % 2 ^ 32⟩
        = .ok (⟨[0x21, 0x00, 0x0A, 0x24, 0x01], 5⟩, 5) ∧
      5 ≤ (⟨[0x21, 0x00, 0x0A, 0x24, 0x01], 5⟩ : Cursor).payload_size ∧
      loop_state_at (fun s => some s) 1
          ⟨[], (⟨[0x21, 0x00, 0x0A, 0x24, 0x01], 5⟩ : Cursor).payload, 5⟩
        = some ⟨[("receive_maximum", [.long 10])], [0x24, 0x01], 2⟩) ∧
    (∃ k0 pos, (⟨[0x21, 0x00, 0x0A, 0x24, 0x01], 5⟩ : Cursor).payload
        = [(0x05 : Byte), 0x21, 0x00, 0x0A, 0x24, 0x01].drop k0 ∧
      (⟨[("receive_maximum", [.long 10])], [0x24, 0x01], 2⟩ : LoopState).payload
        = [(0x05 : Byte), 0x21, 0x00, 0x0A, 0x24, 0x01].drop pos ∧
      pos + (⟨[("receive_maximum", [.long 10])], [0x24, 0x01], 2⟩ : LoopState).properties_size
        = k0 + 5 ∧
      k0 + 5 ≤ [(0x05 : Byte), 0x21, 0x00, 0x0A, 0x24, 0x01].length) ∧
    (⟨[("receive_maximum", [.long 10])], [0x24, 0x01], 2⟩ : LoopState).properties_size
      ≤ (⟨[("receive_maximum", [.long 10])], [0x24, 0x01], 2⟩ : LoopState).payload.length :=
  ⟨⟨rfl, by decide, rfl⟩,
    (cursor_invariant (fun s => some s) [0x05, 0x21, 0x00, 0x0A, 0x24, 0x01]
      ⟨[0x21, 0x00, 0x0A, 0x24, 0x01], 5⟩ 5 1
      ⟨[("receive_maximum", [.long 10])], [0x24, 0x01], 2⟩ rfl (by decide) rfl).1,
    (cursor_invariant (fun s => some s) [0x05, 0x21, 0x00, 0x0A, 0x24, 0x01]
      ⟨[0x21, 0x00, 0x0A, 0x24, 0x01], 5⟩ 5 1
      ⟨[("receive_maximum", [.long 10])], [0x24, 0x01], 2⟩ rfl (by decide) rfl).2.1⟩
theorem parse_property_dispatch (F : List Byte → Option PyStr) (dict : PyDict) (t : Byte)
    (rest : List Byte) (size : Nat) :
    parse_property F dict (t :: rest) size
      = match documented_kind t.val with
        | some kind => parse_property_as F kind dict t.val ⟨rest, size - 1⟩
        | none => .fail := by
  unfold parse_property
  simp only
  split
  -- 1 byte value
  iterate 8
    focus
      rename_i heq
      simp only [heq, documented_kind, parse_property_as, decode_value, record_value]
      cases rest <;> rfl
  -- 2 bytes value
  iterate 4
    focus
      rename_i heq
      simp only [heq, documented_kind, parse_property_as, decode_value, record_value]
      split
      · rfl
      · rcases rest with _ | ⟨a, _ | ⟨b, r⟩⟩ <;> rfl
  -- 4 bytes value
  iterate 4
    focus
      rename_i heq
      simp only [heq, documented_kind, parse_property_as, decode_value, record_value]
      split
      · rfl
      · rcases rest with _ | ⟨a, _ | ⟨b, _ | ⟨c, _ | ⟨d, r⟩⟩⟩⟩ <;> rfl
  -- variable byte integer
  · rename_i heq
    simp only [heq, documented_kind, parse_property_as, decode_value, record_value]
    generalize mqtt_extract_uint ⟨rest, size - 1⟩ = r
    rcases r with ⟨c, v⟩ | _ | _ | _ <;> rfl
  -- utf-8 encoded string
  iterate 7
    focus
      rename_i heq
      simp only [heq, documented_kind, parse_property_as, decode_value, record_value]
      generalize mqtt_extract_string ⟨rest, size - 1⟩ 65535 = r
      rcases r with ⟨c, v, n⟩ | _ | _ | _ <;> rfl
  -- utf-8 string pair
  · rename_i heq
    simp only [heq, documented_kind, parse_property_as, decode_value, record_value]
    generalize mqtt_extract_string ⟨rest, size - 1⟩ 65535 = r
    rcases r with ⟨c, v, n⟩ | _ | _ | _
    · simp only
      generalize mqtt_extract_string c 65535 = r2
      rcases r2 with ⟨c2, v2, n2⟩ | _ | _ | _ <;> rfl
    · rfl
    · rfl
    · rfl
  -- binary data
  iterate 2
    focus
      rename_i heq
      simp only [heq, documented_kind, parse_property_as, decode_value, record_value]
      split
      · rfl
      · rcases rest with _ | ⟨a, _ | ⟨b, r⟩⟩
        · rfl
        · rfl
        · simp only
          split <;> rfl
  -- unknown code
  · rename_i h1 h2 h3 h4 h5 h6 h7 h8 h9 h10 h11 h12 h13 h14 h15 h16 h17 h18 h19 h20 h21 h22 h23
      h24 h25 h26 h27
    have hnone : documented_kind t.val = none := by
      unfold documented_kind
      split <;> first | rfl | (exfalso; simp_all)
    rw [hnone]

theorem getItem_nil (k : String) : PyDict_GetItem [] k = none := rfl

theorem getItem_cons (a : String) (l : List PyObject) (d : PyDict) (k : String) :
    PyDict_GetItem ((a, l) :: d) k = if a = k then some l else PyDict_GetItem d k := by
  unfold PyDict_GetItem
  rw [List.find?_cons]
  by_cases h : a = k
  · simp [h]
  · have : (a == k) = false := by simpa using h
    simp only [this, h, if_false]

theorem update_list_cons (a : String) (l : List PyObject) (d : PyDict) (key : String)
    (f : List PyObject → List PyObject) :
    PyDict_update_list ((a, l) :: d) key f
      = (if a = key then (a, f l) else (a, l)) :: PyDict_update_list d key f := by
  unfold PyDict_update_list
  rw [List.map_cons]
  by_cases h : a = key
  · simp [h]
  · have : (a == key) = false := by simpa using h
    simp [this, h]

theorem getItem_update_list (d : PyDict) (key k : String) (f : List PyObject → List PyObject) :
    PyDict_GetItem (PyDict_update_list d key f) k
      = if k = key then (PyDict_GetItem d key).map f else PyDict_GetItem d k := by
  induction d with
  | nil => simp [PyDict_update_list, getItem_nil]
  | cons e d ih =>
    obtain ⟨a, l⟩ := e
    rw [update_list_cons]
    by_cases hk : k = key
    · subst hk
      simp only [if_true] at ih ⊢
      by_cases ha : a = k
      · simp only [ha, if_true, getItem_cons, Option.map_some']
      · simp only [ha, if_false, getItem_cons, ih]
    · simp only [hk, if_false] at ih ⊢
      by_cases ha : a = key
      · have hak : ¬ a = k := fun h => hk (h.symm.trans ha)
        simp only [ha, if_true, getItem_cons, ih]
        have hkk : ¬ key = k := fun h => hk h.symm
        simp only [hkk, if_false]
      · simp only [ha, if_false, getItem_cons, ih]

theorem getItem_append_single (d : PyDict) (key k : String) (l : List PyObject) :
    PyDict_GetItem (d ++ [(key, l)]) k
      = match PyDict_GetItem d k with
        | some x => some x
        | none => if key = k then some l else none := by
  induction d with
  | nil => simp only [List.nil_append, getItem_cons, getItem_nil]
  | cons e d ih =>
    obtain ⟨a, x⟩ := e
    rw [List.cons_append, getItem_cons, getItem_cons]
    by_cases ha : a = k
    · simp only [ha, if_true]
    · simp only [ha, if_false, ih]

theorem contains_iff_getItem (d : PyDict) (key : String) :
    PyDict_Contains d key = false ↔ PyDict_GetItem d key = none := by
  induction d with
  | nil => simp [PyDict_Contains, getItem_nil]
  | cons e d ih =>
    obtain ⟨a, x⟩ := e
    rw [getItem_cons]
    unfold PyDict_Contains at ih ⊢
    rw [List.any_cons]
    by_cases ha : a = key
    · simp [ha]
    · have : (a == key) = false := by simpa using ha
      simp only [this, Bool.false_or, ha, if_false]
      exact ih

theorem getItem_ensure_list (d : PyDict) (key k : String) :
    PyDict_GetItem (ensure_list d key) k
      = if k = key then some ((PyDict_GetItem d key).getD []) else PyDict_GetItem d k := by
  unfold ensure_list
  by_cases hc : PyDict_Contains d key = false
  · have hg := (contains_iff_getItem d key).mp hc
    simp only [hc, beq_self_eq_true, if_true, PyDict_SetItem, Bool.false_eq_true, if_false]
    rw [getItem_append_single]
    by_cases hk : k = key
    · subst hk
      simp [hg]
    · have hkk : ¬ key = k := fun h => hk h.symm
      simp only [hk, hkk, if_false]
      cases PyDict_GetItem d k <;> rfl
  · have hc' : PyDict_Contains d key = true := by simpa using hc
    have hg : PyDict_GetItem d key ≠ none := fun h => hc ((contains_iff_getItem d key).mpr h)
    simp only [hc', Bool.true_eq_false, beq_iff_eq, if_false]
    by_cases hk : k = key
    · subst hk
      simp only [if_true]
      cases h : PyDict_GetItem d k with
      | none => exact absurd h hg
      | some x => rfl
    · simp only [hk, if_false]

theorem getItem_recorded (d : PyDict) (key k : String) (f : List PyObject → List PyObject) :
    PyDict_GetItem (PyDict_update_list (ensure_list d key) key f) k
      = if k = key then some (f ((PyDict_GetItem d key).getD [])) else PyDict_GetItem d k := by
  rw [getItem_update_list]
  by_cases hk : k = key
  · subst hk
    simp only [if_true, getItem_ensure_list, Option.map_some']
  · simp only [hk, if_false, getItem_ensure_list]
theorem mqtt_extract_string_fail_iff_aux (c : Cursor) (m : Int)
    (h : c.payload_size ≤ c.payload.length) :
    (mqtt_extract_string c m = .fail ↔
      (c.payload_size < 2 ∨ c.payload_size < 2 + length_field c.payload ∨
        (length_field c.payload : Int) > m)) ∧
    (¬ (c.payload_size < 2 ∨ c.payload_size < 2 + length_field c.payload ∨
        (length_field c.payload : Int) > m) →
      mqtt_extract_string c m
        = .ok (⟨c.payload.drop (length_field c.payload + 2),
              c.payload_size - (length_field c.payload + 2)⟩,
            (c.payload.drop 2).take (length_field c.payload) ++ [0],
            length_field c.payload)) := by
  obtain ⟨l, n⟩ := c
  simp only at h ⊢
  by_cases h2 : n < 2
  · have hf : mqtt_extract_string ⟨l, n⟩ m = .fail := by simp [mqtt_extract_string, h2]
    exact ⟨⟨fun _ => Or.inl h2, fun _ => hf⟩, fun hn => absurd (Or.inl h2) hn⟩
  · obtain ⟨b0, b1, rest, rfl⟩ := cons_cons_of_length l (by omega)
    have hlf : length_field (b0 :: b1 :: rest) = b0.val * 256 + b1.val := rfl
    rw [hlf]
    by_cases hc : n < 2 + (b0.val * 256 + b1.val) ∨ ((b0.val * 256 + b1.val : Nat) : Int) > m
    · have hf : mqtt_extract_string ⟨b0 :: b1 :: rest, n⟩ m = .fail := by
        simp only [mqtt_extract_string, h2, if_false, hc, if_true]
      exact ⟨⟨fun _ => Or.inr hc, fun _ => hf⟩, fun hn => absurd (Or.inr hc) hn⟩
    · have hok := mqtt_extract_string_cons b0 b1 rest n m (by omega) (by omega)
        (by simp only [List.length_cons] at h; omega)
      refine ⟨⟨fun hf => ?_, fun hd => ?_⟩, fun _ => ?_⟩
      · rw [hok] at hf; cases hf
      · rcases hd with hd | hd
        · exact absurd hd h2
        · exact absurd hd hc
      · rw [hok]
        simp

/-- C22: the outcome of `mqtt_extract_string` depends only on lengths.  For
every cursor whose remaining size does not exceed the bytes present (malloc
taken to succeed), it fails if and only if the remaining size is below 2, or
below `2 + L` for the big-endian prefix `L`, or `L` exceeds `max_length`, and
otherwise it succeeds; two such cursors with the same remaining size and the
same length prefix both fail or both succeed, whatever their bytes. -/
theorem mqtt_extract_string_depends_on_lengths (c c2 : Cursor) (max_length : Int)
    (h : c.payload_size ≤ c.payload.length) (h2 : c2.payload_size ≤ c2.payload.length)
    (hsize : c2.payload_size = c.payload_size)
    (hfield : length_field c2.payload = length_field c.payload) :
    (mqtt_extract_string c max_length = .fail ↔
      (c.payload_size < 2 ∨ c.payload_size < 2 + length_field c.payload ∨
        (length_field c.payload : Int) > max_length)) ∧
    (mqtt_extract_string c max_length ≠ .fail →
      ∃ r, mqtt_extract_string c max_length = .ok r) ∧
    (mqtt_extract_string c max_length = .fail ↔ mqtt_extract_string c2 max_length = .fail) ∧
    ((∃ r, mqtt_extract_string c max_length = .ok r) ↔
      ∃ r, mqtt_extract_string c2 max_length = .ok r) := by
  have a1 := mqtt_extract_string_fail_iff_aux c max_length h
  have a2 := mqtt_extract_string_fail_iff_aux c2 max_length h2
  rw [hsize, hfield] at a2
  have hiff : mqtt_extract_string c max_length = .fail ↔
      mqtt_extract_string c2 max_length = .fail := a1.1.trans a2.1.symm
  refine ⟨a1.1, ?_, hiff, ?_⟩
  · intro hne
    exact ⟨_, a1.2 (fun hd => hne (a1.1.mpr hd))⟩
  · constructor
    · rintro ⟨r, hr⟩
      have hne : ¬ mqtt_extract_string c2 max_length = .fail := by
        intro hf; rw [hiff.mpr hf] at hr; cases hr
      exact ⟨_, a2.2 (fun hd => hne (a2.1.mpr hd))⟩
    · rintro ⟨r, hr⟩
      have hne : ¬ mqtt_extract_string c max_length = .fail := by
        intro hf; rw [hiff.mp hf] at hr; cases hr
      exact ⟨_, a1.2 (fun hd => hne (a1.1.mpr hd))⟩

/-- Witness of C22: the legal text `"hi"` and the two control characters
`01 02`, same remaining size and same length prefix, both succeed. -/
theorem mqtt_extract_string_depends_on_lengths_witness :
    ((⟨[0x00, 0x02, 0x68, 0x69], 4⟩ : Cursor).payload_size
        ≤ (⟨[0x00, 0x02, 0x68, 0x69], 4⟩ : Cursor).payload.length ∧
      (⟨[0x00, 0x02, 0x01, 0x02], 4⟩ : Cursor).payload_size
        ≤ (⟨[0x00, 0x02, 0x01, 0x02], 4⟩ : Cursor).payload.length ∧
      (⟨[0x00, 0x02, 0x01, 0x02], 4⟩ : Cursor).payload_size
        = (⟨[0x00, 0x02, 0x68, 0x69], 4⟩ : Cursor).payload_size ∧
      length_field (⟨[0x00, 0x02, 0x01, 0x02], 4⟩ : Cursor).payload
        = length_field (⟨[0x00, 0x02, 0x68, 0x69], 4⟩ : Cursor).payload) ∧
    ((∃ r, mqtt_extract_string ⟨[0x00, 0x02, 0x68, 0x69], 4⟩ 65535 = .ok r) ↔
      ∃ r, mqtt_extract_string ⟨[0x00, 0x02, 0x01, 0x02], 4⟩ 65535 = .ok r) :=
  ⟨⟨by decide, by decide, rfl, rfl⟩,
    (mqtt_extract_string_depends_on_lengths ⟨[0x00, 0x02, 0x68, 0x69], 4⟩
      ⟨[0x00, 0x02, 0x01, 0x02], 4⟩ 65535 (by decide) (by decide) rfl rfl).2.2.2⟩

theorem mqtt_extract_uint_frame (l t : List Byte) (n : Nat) (h : n ≤ l.length) :
    (mqtt_extract_uint ⟨l, n⟩ = .fail → mqtt_extract_uint ⟨l ++ t, n⟩ = .fail) ∧
    (∀ c v, mqtt_extract_uint ⟨l, n⟩ = .ok (c, v) →
      mqtt_extract_uint ⟨l ++ t, n⟩ = .ok (⟨c.payload ++ t, c.payload_size⟩, v)) := by
  constructor
  · intro hf
    rcases (mqtt_extract_uint_fail_iff_aux ⟨l, n⟩ h).mp hf with h0 | hc
    · simp only at h0
      subst h0
      simp [mqtt_extract_uint]
    · simp only at hc
      apply mqtt_extract_uint_all_cont
      · rw [List.length_append]; omega
      · rw [List.take_append_of_le_length (by omega)]
        exact hc
  · intro c v hok
    obtain ⟨pre, b, rest, hl, hc, hb, h4, hn, hcur, hv⟩ := mqtt_extract_uint_ok_inv l n c v hok
    subst hl
    rw [hcur, hv]
    have := mqtt_extract_uint_stop pre b (rest ++ t) n hc hb h4 hn
    simpa using this

theorem length_field_append (l t : List Byte) (h : 2 ≤ l.length) :
    length_field (l ++ t) = length_field l := by
  obtain ⟨b0, b1, r, rfl⟩ := cons_cons_of_length l h
  rfl

theorem mqtt_extract_string_frame (l t : List Byte) (n : Nat) (m : Int) (h : n ≤ l.length) :
    (mqtt_extract_string ⟨l, n⟩ m = .fail → mqtt_extract_string ⟨l ++ t, n⟩ m = .fail) ∧
    (∀ c text len, mqtt_extract_string ⟨l, n⟩ m = .ok (c, text, len) →
      mqtt_extract_string ⟨l ++ t, n⟩ m = .ok (⟨c.payload ++ t, c.payload_size⟩, text, len)) := by
  have a1 := mqtt_extract_string_fail_iff_aux ⟨l, n⟩ m h
  have a2 := mqtt_extract_string_fail_iff_aux ⟨l ++ t, n⟩ m
    (by simp only [List.length_append]; omega)
  simp only at a1 a2
  by_cases h2 : n < 2
  · constructor
    · intro _
      exact a2.1.mpr (Or.inl h2)
    · intro c text len hok
      rw [a1.1.mpr (Or.inl h2)] at hok
      cases hok
  · rw [length_field_append l t (by omega)] at a2
    constructor
    · intro hf
      exact a2.1.mpr (a1.1.mp hf)
    · intro c text len hok
      have hne : ¬ (n < 2 ∨ n < 2 + length_field l ∨ (length_field l : Int) > m) := by
        intro hd
        rw [a1.1.mpr hd] at hok
        cases hok
      rw [a1.2 hne] at hok
      rw [a2.2 hne]
      injection hok with hok
      injection hok with hc hr
      injection hr with ht hlen
      subst hc ht hlen
      have hL : length_field l + 2 ≤ l.length := by omega
      simp only
      rw [List.drop_append_of_le_length hL, List.drop_append_of_le_length (by omega),
        List.take_append_of_le_length (by rw [List.length_drop]; omega)]

theorem decode_value_frame (kind : PropertyKind) (l t : List Byte) (n : Nat)
    (h1 : 1 ≤ n) (h : n ≤ l.length) :
    (decode_value kind ⟨l, n⟩ = .fail → decode_value kind ⟨l ++ t, n⟩ = .fail) ∧
    (∀ v c, decode_value kind ⟨l, n⟩ = .ok (v, c) →
      decode_value kind ⟨l ++ t, n⟩ = .ok (v, ⟨c.payload ++ t, c.payload_size⟩)) := by
  cases kind with
  | Byte =>
    cases l with
    | nil => simp at h; omega
    | cons a r =>
      constructor
      · intro hf; simp [decode_value] at hf
      · intro v c hok
        simp only [decode_value] at hok
        cases hok
        simp [decode_value]
  | TwoByteInt =>
    by_cases h2 : n < 2
    · constructor
      · intro _; simp [decode_value, h2]
      · intro v c hok; simp [decode_value, h2] at hok
    · obtain ⟨b0, b1, r, rfl⟩ := cons_cons_of_length l (by omega)
      constructor
      · intro hf; simp [decode_value, h2] at hf
      · intro v c hok
        simp only [decode_value, h2, if_false] at hok
        cases hok
        simp [decode_value, h2]
  | FourByteInt =>
    by_cases h4 : n < 4
    · constructor
      · intro _; simp [decode_value, h4]
      · intro v c hok; simp [decode_value, h4] at hok
    · obtain ⟨b0, b1, r, rfl⟩ := cons_cons_of_length l (by omega)
      obtain ⟨b2, b3, r, rfl⟩ := cons_cons_of_length r
        (by simp only [List.length_cons] at h; omega)
      constructor
      · intro hf; simp [decode_value, h4] at hf
      · intro v c hok
        simp only [decode_value, h4, if_false] at hok
        cases hok
        simp [decode_value, h4]
  | VariableByteInt =>
    obtain ⟨f1, f2⟩ := mqtt_extract_uint_frame l t n h
    rcases mqtt_extract_uint_fail_or_ok ⟨l, n⟩ h with hf | ⟨⟨c, v⟩, hok⟩
    · constructor
      · intro _; simp only [decode_value, f1 hf]
      · intro v c hd; simp only [decode_value, hf] at hd; cases hd
    · constructor
      · intro hd; simp only [decode_value, hok] at hd; cases hd
      · intro v' c' hd
        simp only [decode_value, hok] at hd
        cases hd
        simp only [decode_value, f2 c v hok]
  | Utf8String =>
    obtain ⟨f1, f2⟩ := mqtt_extract_string_frame l t n 65535 h
    rcases mqtt_extract_string_fail_or_ok ⟨l, n⟩ 65535 h with hf | ⟨⟨c, s, len⟩, hok⟩
    · constructor
      · intro _; simp only [decode_value, f1 hf]
      · intro v c hd; simp only [decode_value, hf] at hd; cases hd
    · constructor
      · intro hd; simp only [decode_value, hok] at hd; cases hd
      · intro v' c' hd
        simp only [decode_value, hok] at hd
        cases hd
        simp only [decode_value, f2 c s len hok]
  | Utf8StringPair =>
    obtain ⟨f1, f2⟩ := mqtt_extract_string_frame l t n 65535 h
    rcases mqtt_extract_string_fail_or_ok ⟨l, n⟩ 65535 h with hf | ⟨⟨c, s, len⟩, hok⟩
    · constructor
      · intro _; simp only [decode_value, f1 hf]
      · intro v c hd; simp only [decode_value, hf] at hd; cases hd
    · obtain ⟨i1, i2, i3⟩ := mqtt_extract_string_ok_inv _ _ _ _ _ hok
      simp only at i1 i2 i3
      have hc : c.payload_size ≤ c.payload.length := by
        rw [i3]; simp only [List.length_drop]; omega
      obtain ⟨cl, cn⟩ := c
      simp only at hc
      obtain ⟨g1, g2⟩ := mqtt_extract_string_frame cl t cn 65535 hc
      rcases mqtt_extract_string_fail_or_ok ⟨cl, cn⟩ 65535 hc with hf2 | ⟨⟨c2, s2, len2⟩, hok2⟩
      · constructor
        · intro _; simp only [decode_value, f2 _ s len hok, g1 hf2]
        · intro v c hd; simp only [decode_value, hok, hf2] at hd; cases hd
      · constructor
        · intro hd; simp only [decode_value, hok, hok2] at hd; cases hd
        · intro v' c' hd
          simp only [decode_value, hok, hok2] at hd
          cases hd
          simp only [decode_value, f2 _ s len hok, g2 c2 s2 len2 hok2]
  | BinaryData =>
    by_cases h2 : n < 2
    · constructor
      · intro _; simp [decode_value, h2]
      · intro v c hok; simp [decode_value, h2] at hok
    · obtain ⟨b0, b1, r, rfl⟩ := cons_cons_of_length l (by omega)
      by_cases hb : b0.val * 256 + b1.val + 2 > n
      · constructor
        · intro _; simp [decode_value, h2, hb]
        · intro v c hok; simp [decode_value, h2, hb] at hok
      · constructor
        · intro hf; simp [decode_value, h2, hb] at hf
        · intro v c hok
          simp only [decode_value, h2, if_false, hb] at hok
          cases hok
          simp only [decode_value, h2, if_false, hb, List.cons_append]
          congr 3
          have e : 2 + (b0.val * 256 + b1.val) = (b0.val * 256 + b1.val) + 1 + 1 := by omega
          simp only [List.length_cons] at h
          rw [e, List.drop_succ_cons, List.drop_succ_cons, List.drop_succ_cons,
            List.drop_succ_cons, List.drop_append_of_le_length (by omega)]

theorem parse_property_as_frame (F : List Byte → Option PyStr) (kind : PropertyKind)
    (dict : PyDict) (id : Nat) (l t : List Byte) (n : Nat) (h1 : 1 ≤ n) (h : n ≤ l.length) :
    (parse_property_as F kind dict id ⟨l, n⟩ = .fail →
      parse_property_as F kind dict id ⟨l ++ t, n⟩ = .fail) ∧
    (∀ s, parse_property_as F kind dict id ⟨l, n⟩ = .ok s →
      parse_property_as F kind dict id ⟨l ++ t, n⟩
        = .ok ⟨s.dictObj, s.payload ++ t, s.properties_size⟩) := by
  obtain ⟨f1, f2⟩ := decode_value_frame kind l t n h1 h
  unfold parse_property_as
  cases hd : decode_value kind ⟨l, n⟩ with
  | ok r =>
    obtain ⟨v, c⟩ := r
    rw [f2 v c hd]
    simp only
    cases hr : record_value F dict id v with
    | ok d =>
      simp only
      exact ⟨fun hf => (by cases hf), fun s hs => (by cases hs; rfl)⟩
    | fail => exact ⟨fun _ => rfl, fun s hs => (by cases hs)⟩
    | oob => exact ⟨fun hf => (by cases hf), fun s hs => (by cases hs)⟩
    | nofuel => exact ⟨fun hf => (by cases hf), fun s hs => (by cases hs)⟩
  | fail =>
    rw [f1 hd]
    exact ⟨fun _ => rfl, fun s hs => (by cases hs)⟩
  | oob => exact ⟨fun hf => (by cases hf), fun s hs => (by cases hs)⟩
  | nofuel => exact ⟨fun hf => (by cases hf), fun s hs => (by cases hs)⟩

theorem parse_property_frame (F : List Byte → Option PyStr) (dict : PyDict)
    (p t : List Byte) (size : Nat) (hs : 1 < size) (hl : size ≤ p.length) :
    (parse_property F dict p size = .fail → parse_property F dict (p ++ t) size = .fail) ∧
    (∀ s, parse_property F dict p size = .ok s →
      parse_property F dict (p ++ t) size
        = .ok ⟨s.dictObj, s.payload ++ t, s.properties_size⟩) := by
  cases p with
  | nil => simp at hl; omega
  | cons t0 rest =>
    simp only [List.length_cons] at hl
    rw [List.cons_append, parse_property_dispatch, parse_property_dispatch]
    cases hk : documented_kind t0.val with
    | none => exact ⟨fun _ => rfl, fun s h => (by cases h)⟩
    | some kind =>
      exact parse_property_as_frame F kind dict t0.val rest t (size - 1) (by omega) (by omega)

theorem parse_properties_frame (F : List Byte → Option PyStr) (t : List Byte) :
    ∀ fuel s, s.properties_size ≤ s.payload.length →
      (parse_properties F fuel s = .fail →
        parse_properties F fuel ⟨s.dictObj, s.payload ++ t, s.properties_size⟩ = .fail) ∧
      (∀ e, parse_properties F fuel s = .ok e →
        parse_properties F fuel ⟨s.dictObj, s.payload ++ t, s.properties_size⟩
          = .ok ⟨e.dictObj, e.payload ++ t, e.properties_size⟩) := by
  intro fuel
  induction fuel with
  | zero =>
    intro s _
    simp only [parse_properties]
    split
    · exact ⟨fun hf => (by cases hf), fun e he => (by cases he)⟩
    · exact ⟨fun hf => (by cases hf), fun e he => (by cases he; rfl)⟩
  | succ fuel ih =>
    intro s hl
    by_cases hs : 1 < s.properties_size
    · obtain ⟨f1, f2⟩ := parse_property_frame F s.dictObj s.payload t s.properties_size hs hl
      rcases parse_property_fail_or_ok F s.dictObj s.payload s.properties_size hs hl
        with hp | ⟨s', hp⟩
      · rw [parse_properties_step_fail F fuel s hs hp,
          parse_properties_step_fail F fuel ⟨s.dictObj, s.payload ++ t, s.properties_size⟩ hs
            (f1 hp)]
        exact ⟨fun _ => rfl, fun e he => (by cases he)⟩
      · obtain ⟨k, h2, h3, h4, h5⟩ := parse_property_consumes F _ _ _ _ hs hp
        rw [parse_properties_step F fuel s s' hs hp,
          parse_properties_step F fuel ⟨s.dictObj, s.payload ++ t, s.properties_size⟩
            ⟨s'.dictObj, s'.payload ++ t, s'.properties_size⟩ hs (f2 s' hp)]
        exact ih s' (by rw [h4, h5, List.length_drop]; omega)
    · rw [parse_properties_done F _ s (by omega),
        parse_properties_done F _ ⟨s.dictObj, s.payload ++ t, s.properties_size⟩
          (by simp only []; omega)]
      exact ⟨fun hf => (by cases hf), fun e he => (by cases he; rfl)⟩

theorem extract_properties_trailing (F : List Byte → Option PyStr) (pre : List Byte) (b : Byte)
    (p t : List Byte) (hc : ∀ x ∈ pre, has_continuation_bit x) (hb : ¬ has_continuation_bit b)
    (h4 : pre.length < 4) (hL : p.length = varint_accumulate (pre ++ [b]) 0 0 % 2 ^ 32)
    (hlen : (pre ++ b :: (p ++ t)).length < 2 ^ 32) :
    extract_properties F (pre ++ b :: (p ++ t)) = extract_properties F (pre ++ b :: p) := by
  have hlen' : (pre ++ b :: p).length < 2 ^ 32 := by
    simp only [List.length_append, List.length_cons] at hlen ⊢; omega
  have e1 := mqtt_extract_uint_stop pre b (p ++ t) ((pre ++ b :: (p ++ t)).length % 2 ^ 32)
    hc hb h4 (by rw [Nat.mod_eq_of_lt hlen]; simp)
  have e2 := mqtt_extract_uint_stop pre b p ((pre ++ b :: p).length % 2 ^ 32)
    hc hb h4 (by rw [Nat.mod_eq_of_lt hlen']; simp)
  rw [← hL] at e1 e2
  have s1 : ¬ p.length > (pre ++ b :: (p ++ t)).length % 2 ^ 32 - (pre.length + 1) := by
    rw [Nat.mod_eq_of_lt hlen]; simp only [List.length_append, List.length_cons]; omega
  have s2 : ¬ p.length > (pre ++ b :: p).length % 2 ^ 32 - (pre.length + 1) := by
    rw [Nat.mod_eq_of_lt hlen']; simp only [List.length_append, List.length_cons]; omega
  have l1 : extract_properties_loop F (pre ++ b :: (p ++ t))
      = parse_properties F p.length ⟨[], p ++ t, p.length⟩ := by
    unfold extract_properties_loop
    rw [e1]
    simp only [s1, if_false]
  have l2 : extract_properties_loop F (pre ++ b :: p)
      = parse_properties F p.length ⟨[], p, p.length⟩ := by
    unfold extract_properties_loop
    rw [e2]
    simp only [s2, if_false]
  obtain ⟨f1, f2⟩ := parse_properties_frame F t p.length ⟨[], p, p.length⟩ (Nat.le_refl _)
  unfold extract_properties
  rw [l1, l2]
  rcases parse_properties_fail_or_ok F p.length ⟨[], p, p.length⟩ (Nat.le_refl _)
    (by simp only []; omega) with hf | ⟨e, he⟩
  · rw [hf, f1 hf]
  · rw [he, f2 e he]

/-- C21 (counterexample): with the length prefix `00` and the empty region, no
trailing bytes give the empty table, while `2^32 - 1` trailing bytes make a
buffer of `2^32` bytes, whose size narrows to `payload_size = 0`, and the
decode fails. -/
theorem trailing_bytes_change_outcome :
    extract_properties (fun s => some s) ([0x00] ++ [] ++ []) = .ok [] ∧
      extract_properties (fun s => some s)
        ([0x00] ++ [] ++ List.replicate (2 ^ 32 - 1) (0x00 : Byte)) = .fail := by
  constructor
  · rfl
  · apply extract_properties_size_zero
    simp only [List.length_append, List.length_cons, List.length_nil, List.length_replicate]
    norm_num

/-- C21 (amended): bytes after the declared properties region do not influence
the result as long as the buffer stays below `2^32` bytes.  For every length
prefix `pre ++ [b]` (at most three continuation bytes and a final byte)
encoding `L`, every `L`-byte region `p` and every two trailing sequences `t1`,
`t2` with both buffers shorter than `2^32`, `extract_properties` returns the
same outcome on `prefix ++ p ++ t1` and on `prefix ++ p ++ t2`. -/
theorem trailing_bytes_ignored (F : List Byte → Option PyStr) (pre : List Byte) (b : Byte)
    (p t1 t2 : List Byte)
    (hc : ∀ x ∈ pre, has_continuation_bit x) (hb : ¬ has_continuation_bit b)
    (h4 : pre.length < 4) (hL : p.length = varint_accumulate (pre ++ [b]) 0 0 % 2 ^ 32)
    (h1 : (pre ++ [b] ++ p ++ t1).length < 2 ^ 32)
    (h2 : (pre ++ [b] ++ p ++ t2).length < 2 ^ 32) :
    extract_properties F (pre ++ [b] ++ p ++ t1) = extract_properties F (pre ++ [b] ++ p ++ t2) := by
  have e1 : pre ++ [b] ++ p ++ t1 = pre ++ b :: (p ++ t1) := by simp
  have e2 : pre ++ [b] ++ p ++ t2 = pre ++ b :: (p ++ t2) := by simp
  rw [e1] at h1 ⊢
  rw [e2] at h2 ⊢
  rw [extract_properties_trailing F pre b p t1 hc hb h4 hL h1,
    extract_properties_trailing F pre b p t2 hc hb h4 hL h2]

/-- Witness of C21 (amended): the region `24 01` with no trailing byte and with
the trailing byte `FF`. -/
theorem trailing_bytes_ignored_witness :
    ((∀ x ∈ ([] : List Byte), has_continuation_bit x) ∧ ¬ has_continuation_bit (0x02 : Byte) ∧
      ([] : List Byte).length < 4 ∧
      [(0x24 : Byte), 0x01].length = varint_accumulate ([] ++ [(0x02 : Byte)]) 0 0 % 2 ^ 32 ∧
      (([] : List Byte) ++ [0x02] ++ [0x24, 0x01] ++ []).length < 2 ^ 32 ∧
      (([] : List Byte) ++ [0x02] ++ [0x24, 0x01] ++ [0xFF]).length < 2 ^ 32) ∧
    extract_properties (fun s => some s) ([] ++ [0x02] ++ [0x24, 0x01] ++ [])
      = extract_properties (fun s => some s) ([] ++ [0x02] ++ [0x24, 0x01] ++ [0xFF]) :=
  ⟨⟨by simp, by simp [has_continuation_bit]; decide, by simp, by decide, by simp, by simp⟩,
    trailing_bytes_ignored (fun s => some s) [] 0x02 [0x24, 0x01] [] [0xFF] (by simp)
      (by simp [has_continuation_bit]; decide) (by simp) (by decide) (by simp) (by simp)⟩

theorem documented_kind_lists (id : Nat) :
    (documented_kind id = some .Byte ↔
      id ∈ [0x01, 0x17, 0x19, 0x24, 0x25, 0x28, 0x29, 0x2A]) ∧
    (documented_kind id = some .TwoByteInt ↔ id ∈ [0x13, 0x21, 0x22, 0x23]) ∧
    (documented_kind id = some .FourByteInt ↔ id ∈ [0x02, 0x11, 0x18, 0x27]) ∧
    (documented_kind id = some .VariableByteInt ↔ id ∈ [0x0B]) ∧
    (documented_kind id = some .Utf8String ↔
      id ∈ [0x03, 0x08, 0x12, 0x15, 0x1A, 0x1C, 0x1F]) ∧
    (documented_kind id = some .Utf8StringPair ↔ id ∈ [0x26]) ∧
    (documented_kind id = some .BinaryData ↔ id ∈ [0x09, 0x16]) ∧
    (documented_kind id = none ↔ id ∉ defined_identifiers) := by
  unfold documented_kind defined_identifiers
  split <;> simp_all

theorem decode_value_discarded (kind : PropertyKind) (c c' : Cursor) (v : DecodedValue)
    (h : decode_value kind c = .ok (v, c')) : v = .discarded ↔ kind = .BinaryData := by
  cases kind <;> simp only [decode_value] at h
  · split at h <;> cases h
    simp
  · split at h
    · cases h
    · split at h <;> cases h
      simp
  · split at h
    · cases h
    · split at h <;> cases h
      simp
  · split at h <;> cases h
    simp
  · split at h <;> cases h
    simp
  · split at h
    · split at h <;> cases h
      simp
    · cases h
    · cases h
    · cases h
  · split at h
    · cases h
    · split at h
      · split at h <;> cases h
        simp
      · cases h

theorem record_value_effect (F : List Byte → Option PyStr) (dict d : PyDict) (id : Nat)
    (v : DecodedValue) (h : record_value F dict id v = .ok d) (hv : v ≠ .discarded) :
    ∃ f : List PyObject → List PyObject, (∀ l, (f l).length = l.length + 1) ∧
      d = PyDict_update_list (ensure_list dict (mqtt_property id)) (mqtt_property id) f := by
  cases v with
  | uint n =>
    simp only [record_value, write_property_int] at h
    cases h
    exact ⟨fun l => PyObject.long n :: l, fun l => rfl, rfl⟩
  | text s =>
    simp only [record_value, write_property_string] at h
    split at h
    · split at h
      · cases h
      · cases h
    · split at h
      · cases h
      · cases h
        refine ⟨_, ?_, rfl⟩
        intro l
        simp
  | pair k w =>
    simp only [record_value, write_property_string] at h
    split at h
    · split at h
      · cases h
      · split at h
        · cases h
        · cases h
          refine ⟨_, ?_, rfl⟩
          intro l
          simp
    · split at h
      · cases h
      · cases h
        refine ⟨_, ?_, rfl⟩
        intro l
        simp
  | discarded => exact absurd rfl hv

theorem parse_property_as_ok (F : List Byte → Option PyStr) (kind : PropertyKind)
    (dict : PyDict) (id : Nat) (c : Cursor) (s : LoopState)
    (h : parse_property_as F kind dict id c = .ok s) :
    ∃ v c', decode_value kind c = .ok (v, c') ∧ record_value F dict id v = .ok s.dictObj ∧
      s.payload = c'.payload ∧ s.properties_size = c'.payload_size := by
  unfold parse_property_as at h
  split at h
  · rename_i v c' hd
    split at h
    · rename_i d hr
      cases h
      exact ⟨v, c', hd, hr, rfl, rfl⟩
    · cases h
    · cases h
    · cases h
  · cases h
  · cases h
  · cases h

theorem parse_property_dict_effect (F : List Byte → Option PyStr) (dict : PyDict) (t : Byte)
    (rest : List Byte) (size : Nat) (kind : PropertyKind) (s : LoopState)
    (hk : documented_kind t.val = some kind)
    (hp : parse_property F dict (t :: rest) size = .ok s) :
    (kind = .BinaryData → s.dictObj = dict) ∧
    (kind ≠ .BinaryData →
      (∃ l, PyDict_GetItem s.dictObj (mqtt_property t.val) = some l ∧
        l.length = ((PyDict_GetItem dict (mqtt_property t.val)).getD []).length + 1) ∧
      ∀ k, k ≠ mqtt_property t.val → PyDict_GetItem s.dictObj k = PyDict_GetItem dict k) := by
  rw [parse_property_dispatch, hk] at hp
  simp only at hp
  obtain ⟨v, c', hd, hr, _, _⟩ := parse_property_as_ok F kind dict t.val _ s hp
  have hdisc := decode_value_discarded kind _ c' v hd
  constructor
  · intro hb
    have hv := hdisc.mpr hb
    subst hv
    simp only [record_value] at hr
    cases hr
    rfl
  · intro hnb
    have hv : v ≠ .discarded := fun h => hnb (hdisc.mp h)
    obtain ⟨f, hf, hdict⟩ := record_value_effect F dict s.dictObj t.val v hr hv
    rw [hdict]
    constructor
    · refine ⟨f ((PyDict_GetItem dict (mqtt_property t.val)).getD []), ?_, hf _⟩
      rw [getItem_recorded]
      simp
    · intro k hkne
      rw [getItem_recorded]
      simp only [hkne, if_false]


/-- C17: the dispatch of `extract_properties` applies to each identifier the
wire kind documented for it.  The documented kinds are those the claim lists;
one pass of the loop body on an identifier byte `t` is the decoding of a value
of the documented kind of `t` followed by its recording (and a failure when
`t` is not a defined identifier); a binary value leaves the table unchanged,
and every other value adds one entry to the list stored under the name
`mqtt_property[t]` and changes no other key. -/
theorem dispatch_by_documented_kind (F : List Byte → Option PyStr) (dict : PyDict) (t : Byte)
    (rest : List Byte) (size : Nat) :
    ((∀ id, documented_kind id = some .Byte ↔
        id ∈ [0x01, 0x17, 0x19, 0x24, 0x25, 0x28, 0x29, 0x2A]) ∧
      (∀ id, documented_kind id = some .TwoByteInt ↔ id ∈ [0x13, 0x21, 0x22, 0x23]) ∧
      (∀ id, documented_kind id = some .FourByteInt ↔ id ∈ [0x02, 0x11, 0x18, 0x27]) ∧
      (∀ id, documented_kind id = some .VariableByteInt ↔ id ∈ [0x0B]) ∧
      (∀ id, documented_kind id = some .Utf8String ↔
        id ∈ [0x03, 0x08, 0x12, 0x15, 0x1A, 0x1C, 0x1F]) ∧
      (∀ id, documented_kind id = some .Utf8StringPair ↔ id ∈ [0x26]) ∧
      (∀ id, documented_kind id = some .BinaryData ↔ id ∈ [0x09, 0x16]) ∧
      (∀ id, documented_kind id = none ↔ id ∉ defined_identifiers)) ∧
    parse_property F dict (t :: rest) size
      = (match documented_kind t.val with
        | some kind => parse_property_as F kind dict t.val ⟨rest, size - 1⟩
        | none => .fail) ∧
    (∀ kind s, documented_kind t.val = some kind →
      parse_property F dict (t :: rest) size = .ok s →
      (kind = .BinaryData → s.dictObj = dict) ∧
      (kind ≠ .BinaryData →
        (∃ l, PyDict_GetItem s.dictObj (mqtt_property t.val) = some l ∧
          l.length = ((PyDict_GetItem dict (mqtt_property t.val)).getD []).length + 1) ∧
        ∀ k, k ≠ mqtt_property t.val → PyDict_GetItem s.dictObj k = PyDict_GetItem dict k)) := by
  refine ⟨⟨fun id => (documented_kind_lists id).1, fun id => (documented_kind_lists id).2.1,
    fun id => (documented_kind_lists id).2.2.1, fun id => (documented_kind_lists id).2.2.2.1,
    fun id => (documented_kind_lists id).2.2.2.2.1,
    fun id => (documented_kind_lists id).2.2.2.2.2.1,
    fun id => (documented_kind_lists id).2.2.2.2.2.2.1,
    fun id => (documented_kind_lists id).2.2.2.2.2.2.2⟩,
    parse_property_dispatch F dict t rest size, ?_⟩
  intro kind s hk hp
  exact parse_property_dict_effect F dict t rest size kind s hk hp

/-- Witness of C17: Receive Maximum (`0x21`, a two-byte integer) with value
`00 0A` into the empty table. -/
theorem dispatch_by_documented_kind_witness :
    (documented_kind (0x21 : Byte).val = some .TwoByteInt ∧
      parse_property (fun s => some s) [] ((0x21 : Byte) :: [0x00, 0x0A, 0x24, 0x01]) 5
        = .ok ⟨[("receive_maximum", [.long 10])], [0x24, 0x01], 2⟩) ∧
    ((PropertyKind.TwoByteInt = .BinaryData →
        (⟨[("receive_maximum", [.long 10])], [0x24, 0x01], 2⟩ : LoopState).dictObj = []) ∧
      (PropertyKind.TwoByteInt ≠ .BinaryData →
        (∃ l, PyDict_GetItem
              (⟨[("receive_maximum", [.long 10])], [0x24, 0x01], 2⟩ : LoopState).dictObj
              (mqtt_property (0x21 : Byte).val) = some l ∧
          l.length = ((PyDict_GetItem [] (mqtt_property (0x21 : Byte).val)).getD []).length + 1) ∧
        ∀ k, k ≠ mqtt_property (0x21 : Byte).val →
          PyDict_GetItem
              (⟨[("receive_maximum", [.long 10])], [0x24, 0x01], 2⟩ : LoopState).dictObj k
            = PyDict_GetItem [] k)) :=
  ⟨⟨rfl, rfl⟩,
    (dispatch_by_documented_kind (fun s => some s) [] 0x21 [0x00, 0x0A, 0x24, 0x01] 5).2.2
      .TwoByteInt ⟨[("receive_maximum", [.long 10])], [0x24, 0x01], 2⟩ rfl rfl⟩
theorem mqtt_property_subscription_identifier (id : Nat) (h : id ∈ defined_identifiers)
    (hne : id ≠ 0x0B) : mqtt_property id ≠ "subscription_identifier" := by
  simp only [defined_identifiers, List.mem_cons, List.mem_singleton, List.not_mem_nil,
    or_false] at h
  rcases h with h | h | h | h | h | h | h | h | h | h | h | h | h | h | h | h | h | h | h | h |
    h | h | h | h | h | h | h
  all_goals first | (exfalso; omega) | (subst h; decide)

theorem parse_property_subscription_identifier (F : List Byte → Option PyStr) (dict : PyDict)
    (t : Byte) (rest : List Byte) (size : Nat) (s : LoopState) (ht : t.val = 0x0B)
    (hp : parse_property F dict (t :: rest) size = .ok s) :
    ∃ c v, mqtt_extract_uint ⟨rest, size - 1⟩ = .ok (c, v) ∧
      s.dictObj = PyDict_update_list (ensure_list dict "subscription_identifier")
        "subscription_identifier" (fun listObj => PyObject.long v :: listObj) := by
  rw [parse_property_dispatch, ht] at hp
  simp only [documented_kind, parse_property_as, decode_value] at hp
  split at hp
  · rename_i v c hd
    split at hd
    · rename_i c' v' hu
      cases hd
      simp only [record_value, write_property_int] at hp
      cases hp
      exact ⟨_, _, hu, rfl⟩
    · cases hd
    · cases hd
    · cases hd
  · cases hp
  · cases hp
  · cases hp

theorem getItem_after_pass (F : List Byte → Option PyStr) (s s' : LoopState)
    (hp : parse_property F s.dictObj s.payload s.properties_size = .ok s') :
    (PyDict_GetItem s'.dictObj "subscription_identifier").getD []
      = (subscription_identifier_at s).reverse.map PyObject.long
        ++ (PyDict_GetItem s.dictObj "subscription_identifier").getD [] := by
  obtain ⟨dict, payload, size⟩ := s
  simp only at hp ⊢
  cases payload with
  | nil => simp [parse_property] at hp
  | cons t rest =>
    by_cases ht : t.val = 0x0B
    · obtain ⟨c, v, hu, hd⟩ := parse_property_subscription_identifier F dict t rest size s' ht hp
      rw [hd, getItem_recorded]
      simp [subscription_identifier_at, ht, hu]
    · have hat : subscription_identifier_at ⟨dict, t :: rest, size⟩ = [] := by
        simp [subscription_identifier_at, ht]
      rw [hat]
      simp only [List.reverse_nil, List.map_nil, List.nil_append]
      cases hk : documented_kind t.val with
      | none =>
        rw [parse_property_dispatch, hk] at hp
        cases hp
      | some kind =>
        obtain ⟨e1, e2⟩ := parse_property_dict_effect F dict t rest size kind s' hk hp
        by_cases hb : kind = .BinaryData
        · rw [e1 hb]
        · have hdef : t.val ∈ defined_identifiers := by
            by_contra hnot
            rw [((documented_kind_lists t.val).2.2.2.2.2.2.2).mpr hnot] at hk
            cases hk
          rw [(e2 hb).2 _ (mqtt_property_subscription_identifier t.val hdef ht).symm]

theorem subscription_identifiers_reversed (F : List Byte → Option PyStr) :
    ∀ fuel s e, parse_properties F fuel s = .ok e →
      (PyDict_GetItem e.dictObj "subscription_identifier").getD []
        = (subscription_identifiers F fuel s).reverse.map PyObject.long
          ++ (PyDict_GetItem s.dictObj "subscription_identifier").getD [] := by
  intro fuel
  induction fuel with
  | zero =>
    intro s e h
    rw [parse_properties] at h
    split at h
    · cases h
    · cases h; simp [subscription_identifiers]
  | succ fuel ih =>
    intro s e h
    rw [parse_properties] at h
    split at h
    · rename_i hs
      split at h
      · rename_i s' hp
        rw [ih s' e h, getItem_after_pass F s s' hp]
        simp only [subscription_identifiers, hs, if_true, hp, List.reverse_append, List.map_append,
          List.append_assoc]
      · cases h
      · cases h
      · cases h
    · rename_i hs
      cases h
      simp [subscription_identifiers, hs]

theorem parse_property_varint (F : List Byte → Option PyStr) (dict : PyDict) (v : Nat)
    (rest : List Byte) (size : Nat) (hv : v < 2 ^ 28)
    (hsize : 1 + (mqtt_varint v).length ≤ size) :
    parse_property F dict (0x0B :: (mqtt_varint v ++ rest)) size
      = .ok ⟨PyDict_update_list (ensure_list dict "subscription_identifier")
            "subscription_identifier" (fun listObj => PyObject.long v :: listObj),
          rest, size - (1 + (mqtt_varint v).length)⟩ := by
  have e11 : ((0x0B : Byte) : Nat) = 11 := rfl
  have hu := mqtt_extract_uint_encode v hv rest (size - 1) (by omega)
  have es : size - 1 - (mqtt_varint v).length = size - (1 + (mqtt_varint v).length) := by omega
  rw [parse_property_dispatch, e11]
  simp only [documented_kind, parse_property_as, decode_value, hu, record_value,
    write_property_int, es]
  rfl

theorem subscription_identifier_entries_length (v : Nat) (vs : List Nat) :
    (subscription_identifier_entries (v :: vs)).length
      = 1 + (mqtt_varint v).length + (subscription_identifier_entries vs).length := by
  simp [subscription_identifier_entries]; omega

theorem parse_subscription_identifier_entries (F : List Byte → Option PyStr) :
    ∀ (vs : List Nat) (l : List PyObject) (fuel : Nat), (∀ v ∈ vs, v < 2 ^ 28) →
      (subscription_identifier_entries vs).length ≤ 2 * fuel + 1 →
      parse_properties F fuel ⟨[("subscription_identifier", l)],
          subscription_identifier_entries vs, (subscription_identifier_entries vs).length⟩
        = .ok ⟨[("subscription_identifier", vs.reverse.map PyObject.long ++ l)], [], 0⟩ := by
  intro vs
  induction vs with
  | nil =>
    intro l fuel _ _
    rw [parse_properties_done F fuel _ (by simp [subscription_identifier_entries])]
    simp [subscription_identifier_entries]
  | cons v vs ih =>
    intro l fuel hvs hf
    have hlen := subscription_identifier_entries_length v vs
    have hv1 := (mqtt_varint_length v).1
    obtain ⟨fuel, rfl⟩ : ∃ f, fuel = f + 1 := ⟨fuel - 1, by omega⟩
    have hstep := parse_property_varint F [("subscription_identifier", l)] v
      (subscription_identifier_entries vs) (subscription_identifier_entries (v :: vs)).length
      (hvs v (by simp)) (by omega)
    have hd : PyDict_update_list (ensure_list [("subscription_identifier", l)]
          "subscription_identifier") "subscription_identifier"
          (fun listObj => PyObject.long v :: listObj)
        = [("subscription_identifier", PyObject.long v :: l)] := rfl
    rw [hd] at hstep
    have hsz : (subscription_identifier_entries (v :: vs)).length - (1 + (mqtt_varint v).length)
        = (subscription_identifier_entries vs).length := by omega
    rw [hsz] at hstep
    rw [parse_properties_step F fuel
      ⟨[("subscription_identifier", l)], subscription_identifier_entries (v :: vs),
        (subscription_identifier_entries (v :: vs)).length⟩ _
      (show 1 < (subscription_identifier_entries (v :: vs)).length by omega) hstep,
      ih (PyObject.long v :: l) fuel (fun x hx => hvs x (by simp [hx])) (by omega)]
    simp

/-- C16: repeated integer properties are prepended.  For every buffer that
decodes successfully, the `subscription_identifier` sequence of the returned
table is the reverse of the Subscription Identifier values the loop meets in
wire order; in particular a buffer whose properties are the Subscription
Identifier entries `s1, ..., sn` (each below `2^28`) decodes to the table
`{subscription_identifier: [sn, ..., s1]}`. -/
theorem subscription_identifier_most_recent_first (F : List Byte → Option PyStr)
    (buf : List Byte) (c : Cursor) (L : Nat) (t : PyDict)
    (hp : mqtt_extract_uint ⟨buf, buf.length % 2 ^ 32⟩ = .ok (c, L))
    (hok : extract_properties F buf = .ok t) :
    (PyDict_GetItem t "subscription_identifier").getD []
        = (subscription_identifiers F L ⟨[], c.payload, L⟩).reverse.map PyObject.long ∧
      (∀ v vs, (∀ x ∈ v :: vs, x < 2 ^ 28) →
        (subscription_identifier_entries (v :: vs)).length < 2 ^ 28 →
        extract_properties F
            (mqtt_varint (subscription_identifier_entries (v :: vs)).length
              ++ subscription_identifier_entries (v :: vs))
          = .ok [("subscription_identifier", (v :: vs).reverse.map PyObject.long)]) := by
  constructor
  · obtain ⟨e, he, het⟩ := extract_properties_of_loop F buf t hok
    unfold extract_properties_loop at he
    rw [hp] at he
    simp only at he
    split at he
    · cases he
    · have := subscription_identifiers_reversed F L _ e he
      rw [← het, this]
      simp [getItem_nil]
  · intro v vs hvs hlen
    have hl := subscription_identifier_entries_length v vs
    have hv1 := (mqtt_varint_length v).1
    have hloop : extract_properties_loop F
        (mqtt_varint (subscription_identifier_entries (v :: vs)).length
          ++ subscription_identifier_entries (v :: vs))
        = .ok ⟨[("subscription_identifier", (v :: vs).reverse.map PyObject.long)], [], 0⟩ := by
      rw [extract_properties_loop_encoded F _ hlen]
      obtain ⟨fuel, hfuel⟩ : ∃ f, (subscription_identifier_entries (v :: vs)).length = f + 1 :=
        ⟨(subscription_identifier_entries (v :: vs)).length - 1, by omega⟩
      have hstep := parse_property_varint F [] v (subscription_identifier_entries vs)
        (subscription_identifier_entries (v :: vs)).length (hvs v (by simp)) (by omega)
      have hd : PyDict_update_list (ensure_list [] "subscription_identifier")
            "subscription_identifier" (fun listObj => PyObject.long v :: listObj)
          = [("subscription_identifier", [PyObject.long v])] := rfl
      have hsz : (subscription_identifier_entries (v :: vs)).length
          - (1 + (mqtt_varint v).length) = (subscription_identifier_entries vs).length := by
        omega
      rw [hd, hsz] at hstep
      have hs := parse_properties_step F fuel
        ⟨[], subscription_identifier_entries (v :: vs),
          (subscription_identifier_entries (v :: vs)).length⟩ _
        (show 1 < (subscription_identifier_entries (v :: vs)).length by omega) hstep
      rw [← hfuel] at hs
      rw [hs, parse_subscription_identifier_entries F vs [PyObject.long v] fuel
        (fun x hx => hvs x (by simp [hx])) (by omega)]
      simp
    unfold extract_properties
    rw [hloop]

/-- Witness of C16: Subscription Identifier 128, Maximum QoS 1, Subscription
Identifier 5 give `subscription_identifier: [5, 128]`. -/
theorem subscription_identifier_most_recent_first_witness :
    (mqtt_extract_uint ⟨[0x07, 0x0B, 0x80, 0x01, 0x24, 0x01, 0x0B, 0x05],
          [(0x07 : Byte), 0x0B, 0x80, 0x01, 0x24, 0x01, 0x0B, 0x05].length % 2 ^ 32⟩
        = .ok (⟨[0x0B, 0x80, 0x01, 0x24, 0x01, 0x0B, 0x05], 7⟩, 7) ∧
      extract_properties (fun s => some s) [0x07, 0x0B, 0x80, 0x01, 0x24, 0x01, 0x0B, 0x05]
        = .ok [("subscription_identifier", [.long 5, .long 128]), ("max_qos", [.long 1])] ∧
      subscription_identifiers (fun s => some s) 7
          ⟨[], [0x0B, 0x80, 0x01, 0x24, 0x01, 0x0B, 0x05], 7⟩ = [128, 5]) ∧
    (PyDict_GetItem [("subscription_identifier", [.long 5, .long 128]), ("max_qos", [.long 1])]
          "subscription_identifier").getD []
      = (subscription_identifiers (fun s => some s) 7
          ⟨[], (⟨[0x0B, 0x80, 0x01, 0x24, 0x01, 0x0B, 0x05], 7⟩ : Cursor).payload, 7⟩).reverse.map
            PyObject.long :=
  ⟨⟨rfl, rfl, rfl⟩,
    (subscription_identifier_most_recent_first (fun s => some s)
      [0x07, 0x0B, 0x80, 0x01, 0x24, 0x01, 0x0B, 0x05]
      ⟨[0x0B, 0x80, 0x01, 0x24, 0x01, 0x0B, 0x05], 7⟩ 7
      [("subscription_identifier", [.long 5, .long 128]), ("max_qos", [.long 1])] rfl rfl).1⟩

end Gmqtt
